import Mathlib

/-!
# Coffee-diary: shallow embedding and verification

A shallow embedding of the server-side logic of the coffee-diary
application (user / password-reset / email-confirmation token service,
coffee CRUD with pagination, and the statistics helpers), together with
theorems settling the specification claims about it.

The database is modelled as explicit lists of records; every Prisma call
in the source is translated to the corresponding pure list operation and
the new database state is threaded explicitly.  Wall-clock time is a
`Nat` (seconds); `new Date()` becomes a `now` parameter and the
five-minute / twenty-four-hour TTLs become `now + 5 * 60` and
`now + 24 * 60 * 60`.  `bcrypt.hash` and `bcrypt.compare` are
nondeterministic / external, so they are threaded as function
parameters.  A Prisma call that throws (`update` / `create` on a missing
or conflicting unique row) is modelled by the `thrown` constructor of
`OpResult`, paired with the database state at the moment of the throw.
-/

/-- A row of the `User` table.  Only the columns read by the verified
operations (`id`, `email`, `isVerified`) are modelled; profile columns
(`name`, `surname`, `avatarUrl`, ...) are never inspected by them. -/
structure UserRec where
  id : Nat
  email : String
  isVerified : Bool
deriving DecidableEq, Repr

/-- A row of the `Password` table (unique per `userId`). -/
structure PasswordRec where
  userId : Nat
  hash : String
deriving DecidableEq, Repr

/-- A row of the `PasswordReset` / `EmailConfirmation` tables: an opaque
token string (primary key), the owning user and the expiry instant.
(`createdAt` is never read by the code and is omitted.) -/
structure TokenRec where
  token : String
  userId : Nat
  expiresAt : Nat
deriving DecidableEq, Repr

/-- A row of the `Coffee` table (schema: `migrations/..._add_coffee_model`
plus the later name/brand migration).  `updatedAt` is auto-maintained and
never read by the verified operations, so it is omitted. -/
structure CoffeeRec where
  id : Nat
  userId : Nat
  name : String
  brand : String
  preparation : String
  shots : Nat
  flavor : String
  rating : Int
  description : String
  createdAt : Nat
deriving DecidableEq, Repr

/-- The whole database state. -/
structure DB where
  users : List UserRec
  passwords : List PasswordRec
  passwordResets : List TokenRec
  emailConfirmations : List TokenRec
  coffees : List CoffeeRec
deriving DecidableEq, Repr

/-- Outcome of an operation that can throw a Prisma runtime error
(`update`/`create` on a missing or conflicting unique row): `ok` carries
the value the TS function returns, `thrown` marks the propagated
exception. -/
inductive OpResult (α : Type) where
  | ok (a : α)
  | thrown
deriving DecidableEq, Repr

/-- `getUserById` — `prisma.user.findUnique({ where: { id } })`. -/
def getUserById (db : DB) (id : Nat) : Option UserRec :=
  db.users.find? (fun u => u.id == id)

/-- `getUserByEmail` — `prisma.user.findUnique({ where: { email } })`. -/
def getUserByEmail (db : DB) (email : String) : Option UserRec :=
  db.users.find? (fun u => u.email == email)

/-- `prisma.user.findUnique({ where: { email }, include: { password: true } })`,
password part: the `Password` row of a user, if any. -/
def getPasswordFor (db : DB) (uid : Nat) : Option PasswordRec :=
  db.passwords.find? (fun p => p.userId == uid)

/-- `verifyPasswordResetToken(token)` (user.server.ts):
`findUnique` by token including the owning user; `null` when absent;
when `now > expiresAt` the token row is deleted and `null` returned;
otherwise the token row (with its included user) is returned.
The result pairs the returned value with the database state after the
call. -/
def verifyPasswordResetToken (now : Nat) (db : DB) (t : String) :
    Option (TokenRec × Option UserRec) × DB :=
  match db.passwordResets.find? (fun r => r.token == t) with
  | none => (none, db)
  | some pr =>
    if pr.expiresAt < now then
      (none, { db with
        passwordResets := db.passwordResets.filter (fun r => !(r.token == t)) })
    else
      (some (pr, getUserById db pr.userId), db)

/-- `verifyEmailConfirmationToken(token)` — same logic on the
`EmailConfirmation` table. -/
def verifyEmailConfirmationToken (now : Nat) (db : DB) (t : String) :
    Option (TokenRec × Option UserRec) × DB :=
  match db.emailConfirmations.find? (fun r => r.token == t) with
  | none => (none, db)
  | some ec =>
    if ec.expiresAt < now then
      (none, { db with
        emailConfirmations := db.emailConfirmations.filter (fun r => !(r.token == t)) })
    else
      (some (ec, getUserById db ec.userId), db)

/-- `createPasswordResetToken(email)`: look up the user (null when
absent), `deleteMany` this user's reset tokens, then `create` a token
expiring in 5 minutes.  The generated `cuid()` identifier is the
`newTok` parameter; `create` throws when the primary key collides with a
surviving row. -/
def createPasswordResetToken (now : Nat) (newTok : String) (db : DB) (email : String) :
    OpResult (Option (UserRec × TokenRec)) × DB :=
  match getUserByEmail db email with
  | none => (.ok none, db)
  | some u =>
    let remaining := db.passwordResets.filter (fun r => !(r.userId == u.id))
    if remaining.any (fun r => r.token == newTok) then
      (.thrown, { db with passwordResets := remaining })
    else
      let pr : TokenRec := { token := newTok, userId := u.id, expiresAt := now + 5 * 60 }
      (.ok (some (u, pr)), { db with passwordResets := remaining ++ [pr] })

/-- `createEmailConfirmationToken(userId)`: look up the user by id,
`deleteMany` this user's confirmation tokens, then `create` a token
expiring in 24 hours. -/
def createEmailConfirmationToken (now : Nat) (newTok : String) (db : DB) (userId : Nat) :
    OpResult (Option (UserRec × TokenRec)) × DB :=
  match getUserById db userId with
  | none => (.ok none, db)
  | some u =>
    let remaining := db.emailConfirmations.filter (fun r => !(r.userId == u.id))
    if remaining.any (fun r => r.token == newTok) then
      (.thrown, { db with emailConfirmations := remaining })
    else
      let ec : TokenRec := { token := newTok, userId := u.id, expiresAt := now + 24 * 60 * 60 }
      (.ok (some (u, ec)), { db with emailConfirmations := remaining ++ [ec] })

/-- `prisma.password.update({ where: { userId }, data: { hash } })`:
throws (`P2025`) when the user has no `Password` row, otherwise replaces
the hash of that row. -/
def updatePasswordHash (ps : List PasswordRec) (uid : Nat) (h : String) :
    Option (List PasswordRec) :=
  if ps.any (fun p => p.userId == uid) then
    some (ps.map (fun p => if p.userId == uid then { p with hash := h } else p))
  else none

/-- `resetPassword(token, newPassword)`: verify the token (with its lazy
expired-token deletion side effect); on `null` return `null`; otherwise
hash the new password (`hf` models `bcrypt.hash`), update the owning
user's `Password` row, delete the reset token and return the token's
included user. -/
def resetPassword (now : Nat) (hf : String → String) (db : DB) (t : String)
    (newPassword : String) : OpResult (Option UserRec) × DB :=
  match verifyPasswordResetToken now db t with
  | (none, db1) => (.ok none, db1)
  | (some (pr, user), db1) =>
    match updatePasswordHash db1.passwords pr.userId (hf newPassword) with
    | none => (.thrown, db1)
    | some ps =>
      let db2 := { db1 with passwords := ps }
      let db3 := { db2 with
        passwordResets := db2.passwordResets.filter (fun r => !(r.token == t)) }
      (.ok user, db3)

/-- `confirmUserEmail(token)`: verify the confirmation token; on `null`
return `null`; otherwise set the owning user's `isVerified` flag
(`prisma.user.update` throws when the user row is gone), delete the
confirmation token and return the updated user. -/
def confirmUserEmail (now : Nat) (db : DB) (t : String) :
    OpResult (Option UserRec) × DB :=
  match verifyEmailConfirmationToken now db t with
  | (none, db1) => (.ok none, db1)
  | (some (ec, _), db1) =>
    if db1.users.any (fun u => u.id == ec.userId) then
      let users := db1.users.map
        (fun u => if u.id == ec.userId then { u with isVerified := true } else u)
      let db2 := { db1 with users := users }
      let db3 := { db2 with
        emailConfirmations := db2.emailConfirmations.filter (fun r => !(r.token == t)) }
      (.ok (users.find? (fun u => u.id == ec.userId)), db3)
    else
      (.thrown, db1)

/-! ## Token-touching operations as a step relation (for the
at-most-one-token-per-kind-per-user invariant under arbitrary operation
sequences). -/

/-- One invocation of a token-touching server function. -/
inductive TokenOp where
  | createReset (now : Nat) (newTok : String) (email : String)
  | createConfirm (now : Nat) (newTok : String) (userId : Nat)
  | verifyReset (now : Nat) (t : String)
  | verifyConfirm (now : Nat) (t : String)
  | doResetPassword (now : Nat) (t : String) (newPw : String)
  | doConfirmEmail (now : Nat) (t : String)
deriving DecidableEq, Repr

/-- The database effect of a token-touching operation (`hf` models
`bcrypt.hash`). -/
def applyTokenOp (hf : String → String) (db : DB) : TokenOp → DB
  | .createReset now newTok email => (createPasswordResetToken now newTok db email).2
  | .createConfirm now newTok userId => (createEmailConfirmationToken now newTok db userId).2
  | .verifyReset now t => (verifyPasswordResetToken now db t).2
  | .verifyConfirm now t => (verifyEmailConfirmationToken now db t).2
  | .doResetPassword now t newPw => (resetPassword now hf db t newPw).2
  | .doConfirmEmail now t => (confirmUserEmail now db t).2

/-- A token table holds at most one row per user. -/
def atMostOnePerUser (l : List TokenRec) : Prop :=
  ∀ uid : Nat, (l.filter (fun r => r.userId == uid)).length ≤ 1

/-- Both token tables hold at most one row per user. -/
def tokenInvariant (db : DB) : Prop :=
  atMostOnePerUser db.passwordResets ∧ atMostOnePerUser db.emailConfirmations

/-! ## Auth / login (`verifyLogin`, part_001 version with the
`isVerified` gate). -/

/-- The three possible results of `verifyLogin`: `null`, the
distinguished `{ needsVerification: true }` object, and the user with
the password relation stripped (`UserRec` carries no hash, mirroring the
destructuring `const { password: _password, ...userWithoutPassword }`). -/
inductive LoginResult where
  | invalid
  | needsVerification
  | success (user : UserRec)
deriving DecidableEq, Repr

/-- `verifyLogin(email, password)`: fetch the user with its password
row; `null` when either is missing; `{ needsVerification: true }` when
the user is not verified (checked before the hash comparison); `null` on
hash mismatch (`compare` models `bcrypt.compare`); otherwise the user
without the password field. -/
def verifyLogin (compare : String → String → Bool) (db : DB)
    (email password : String) : LoginResult :=
  match getUserByEmail db email with
  | none => .invalid
  | some u =>
    match getPasswordFor db u.id with
    | none => .invalid
    | some p =>
      if !u.isVerified then .needsVerification
      else if !(compare password p.hash) then .invalid
      else .success u

/-! ## Coffee repository (part_000). -/

/-- `deleteCoffee({ id, userId })` — `prisma.coffee.deleteMany({ where:
{ id, userId } })`: removes every row matching both fields and returns
the deleted-row count. -/
def deleteCoffee (db : DB) (id userId : Nat) : Nat × DB :=
  ((db.coffees.filter (fun c => c.id == id && c.userId == userId)).length,
   { db with coffees := db.coffees.filter (fun c => !(c.id == id && c.userId == userId)) })

/-- The mutable columns of a coffee row, as passed to create/update. -/
structure CoffeeData where
  name : String
  brand : String
  preparation : String
  shots : Nat
  flavor : String
  rating : Int
  description : String
deriving DecidableEq, Repr

/-- `updateCoffee({ id, userId, ...data })` — `prisma.coffee.update({
where: { id, userId }, data })`: throws (`P2025`) when no row matches
both fields, otherwise rewrites the data columns of the matching row and
returns the updated row. -/
def updateCoffee (db : DB) (id userId : Nat) (d : CoffeeData) :
    OpResult CoffeeRec × DB :=
  match db.coffees.find? (fun c => c.id == id && c.userId == userId) with
  | none => (.thrown, db)
  | some c0 =>
    (.ok { c0 with name := d.name, brand := d.brand, preparation := d.preparation,
                   shots := d.shots, flavor := d.flavor, rating := d.rating,
                   description := d.description },
     { db with coffees := db.coffees.map (fun c =>
         if c.id == id && c.userId == userId then
           { c with name := d.name, brand := d.brand, preparation := d.preparation,
                    shots := d.shots, flavor := d.flavor, rating := d.rating,
                    description := d.description }
         else c) })

/-- Newest-first order on coffees (`orderBy: { createdAt: "desc" }`). -/
def createdDesc (a b : CoffeeRec) : Prop := b.createdAt ≤ a.createdAt

instance : DecidableRel createdDesc := fun a b => Nat.decLe b.createdAt a.createdAt

instance : IsTotal CoffeeRec createdDesc :=
  ⟨fun a b => Nat.le_total b.createdAt a.createdAt⟩

instance : IsTrans CoffeeRec createdDesc :=
  ⟨fun _ _ _ hab hbc => Nat.le_trans hbc hab⟩

/-- A user's coffees ordered by creation time descending, as the
database returns them for `findMany({ where: { userId }, orderBy:
{ createdAt: "desc" } })`. -/
def userCoffeesDesc (db : DB) (userId : Nat) : List CoffeeRec :=
  (db.coffees.filter (fun c => c.userId == userId)).insertionSort createdDesc

/-- `Math.ceil(a / b)` on non-negative integers with `b ≥ 1`. -/
def ceilDiv (a b : Nat) : Nat := (a + b - 1) / b

/-- The computed pagination block. -/
structure Pagination where
  totalItems : Nat
  totalPages : Nat
  currentPage : Nat
  perPage : Nat
  hasNextPage : Bool
  hasPrevPage : Bool
deriving DecidableEq, Repr

/-- Result of `getCoffeeListItemsPaginated`. -/
structure PaginatedCoffees where
  items : List CoffeeRec
  pagination : Pagination
deriving DecidableEq, Repr

/-- `getCoffeeListItemsPaginated({ userId, page, perPage })`: inside one
transaction, count the user's rows, compute `totalPages =
Math.ceil(totalItems / perPage)`, fetch the page with `skip = (page - 1)
* perPage` / `take = perPage` ordered newest first, and return the items
with the pagination block. -/
def getCoffeeListItemsPaginated (db : DB) (userId page perPage : Nat) :
    PaginatedCoffees :=
  let totalItems := (db.coffees.filter (fun c => c.userId == userId)).length
  let totalPages := ceilDiv totalItems perPage
  let items := ((userCoffeesDesc db userId).drop ((page - 1) * perPage)).take perPage
  { items := items,
    pagination :=
      { totalItems := totalItems, totalPages := totalPages, currentPage := page,
        perPage := perPage,
        hasNextPage := decide (page < totalPages),
        hasPrevPage := decide (1 < page) } }

/-! ## Forgot-password route action (forgot-password.tsx). -/

/-- The observable part of the action's JSON response: the `status`
field, the optional generic `message`, the optional `errors.email`
field, and the HTTP status code. -/
structure ActionResponse where
  status : String
  message : Option String
  emailError : Option String
  httpStatus : Nat
deriving DecidableEq, Repr

/-- The 400 response for a syntactically invalid email. -/
def invalidEmailResp : ActionResponse :=
  { status := "error", message := none, emailError := some "Email is invalid",
    httpStatus := 400 }

/-- The generic success response (identical on every success path). -/
def genericSuccessResp : ActionResponse :=
  { status := "success",
    message := some "If your email exists in our system, you will receive a password reset link.",
    emailError := none, httpStatus := 200 }

/-- The 500 response when sending the reset email fails. -/
def sendFailResp : ActionResponse :=
  { status := "error", message := none,
    emailError := some "Failed to send reset email. Please try again.",
    httpStatus := 500 }

/-- The forgot-password `action`.  Modelled from the spec for the two
pieces of this repository that are not under `src/`: `validateEmail`
(in `~/utils`; the spec only requires it to decide syntactic email
validity, so it is threaded as the `validate` parameter) and
`sendPasswordResetEmail` (in `~/services/email.server`; per the spec the
email API "failure returns a boolean success flag to the caller", so its
outcome is the `emailOk` parameter).  Everything else follows the route
source: reject invalid emails with a 400; on an absent account answer
with the generic success message; otherwise create a reset token and
send the email, answering 500 when sending fails and the generic success
message when it succeeds. -/
def forgotPasswordAction (validate : String → Bool) (emailOk : Bool)
    (now : Nat) (newTok : String) (db : DB) (email : String) :
    OpResult ActionResponse × DB :=
  if !(validate email) then (.ok invalidEmailResp, db)
  else
    match getUserByEmail db email with
    | none => (.ok genericSuccessResp, db)
    | some _ =>
      match createPasswordResetToken now newTok db email with
      | (.ok none, db1) => (.ok genericSuccessResp, db1)
      | (.ok (some _), db1) =>
        if emailOk then (.ok genericSuccessResp, db1) else (.ok sendFailResp, db1)
      | (.thrown, db1) => (.thrown, db1)

/-! ## Statistics helpers (coffees.stats.tsx).

The JS code accumulates into plain objects.  A plain object keeps string
keys in insertion order, except that keys which are canonical array
indices (the decimal form of an integer `0 ≤ n < 2^32 - 1`) are
enumerated first, in ascending numeric order, by
`Object.values`/`Object.entries`.  The grouping keys of the consumption
statistics always contain `"|"` and are therefore never array indices,
so plain insertion order suffices there; the preparation counts use raw
preparation strings, so the full enumeration order is modelled. -/

/-- The aggregation record of the stats page (`rating` is the running
sum; `avgRating` is recomputed on each step). -/
structure AggregatedCoffee where
  name : String
  brand : String
  count : Nat
  rating : Rat
  avgRating : Rat
deriving DecidableEq, Repr

/-- The grouping key `` `${coffee.name}|${coffee.brand}` ``. -/
def statsKey (c : CoffeeRec) : String := c.name ++ "|" ++ c.brand

/-- The key under which a group was stored. -/
def aggKey (g : AggregatedCoffee) : String := g.name ++ "|" ++ g.brand

/-- One step of the `reduce` of `calculateMostConsumedCoffees`: create
the group on first sight of a key (the `count: 0, rating: 0` record
immediately incremented), otherwise bump the stored group in place. -/
def addCoffeeToGroups (acc : List AggregatedCoffee) (c : CoffeeRec) :
    List AggregatedCoffee :=
  if acc.any (fun g => aggKey g == statsKey c) then
    acc.map (fun g =>
      if aggKey g == statsKey c then
        { g with count := g.count + 1, rating := g.rating + (c.rating : Rat),
                 avgRating := (g.rating + (c.rating : Rat)) / ((g.count : Rat) + 1) }
      else g)
  else
    acc ++ [{ name := c.name, brand := c.brand, count := 1, rating := (c.rating : Rat),
              avgRating := (c.rating : Rat) / 1 }]

/-- The grouped consumption record, in key-insertion order
(`Object.values` of the accumulator; every key contains `"|"`, so no
array-index reordering applies). -/
def groupCoffeesByKey (cs : List CoffeeRec) : List AggregatedCoffee :=
  cs.foldl addCoffeeToGroups []

/-- The comparator `(a, b) => b.count - a.count || b.avgRating -
a.avgRating` as the order it sorts by: count descending, ties by average
rating descending. -/
def consumedLE (a b : AggregatedCoffee) : Prop :=
  b.count < a.count ∨ (b.count = a.count ∧ b.avgRating ≤ a.avgRating)

instance : DecidableRel consumedLE := fun _ _ => by
  unfold consumedLE; infer_instance

instance : IsTotal AggregatedCoffee consumedLE := by
  constructor
  intro a b
  rcases Nat.lt_trichotomy a.count b.count with h | h | h
  · exact Or.inr (Or.inl h)
  · rcases le_total b.avgRating a.avgRating with hr | hr
    · exact Or.inl (Or.inr ⟨h.symm, hr⟩)
    · exact Or.inr (Or.inr ⟨h, hr⟩)
  · exact Or.inl (Or.inl h)

instance : IsTrans AggregatedCoffee consumedLE := by
  constructor
  rintro a b c (hab | ⟨hab, hab2⟩) (hbc | ⟨hbc, hbc2⟩)
  · exact Or.inl (hbc.trans hab)
  · exact Or.inl (hbc ▸ hab)
  · exact Or.inl (hab ▸ hbc)
  · exact Or.inr ⟨hbc.trans hab, hbc2.trans hab2⟩

/-- `calculateMostConsumedCoffees`: group by the string key, sort by
count descending with ties by average rating descending (JS `sort` is
stable; insertion sort models it), and keep the first five. -/
def calculateMostConsumedCoffees (cs : List CoffeeRec) : List AggregatedCoffee :=
  ((groupCoffeesByKey cs).insertionSort consumedLE).take 5

/-- The decimal value of a digit character, if it is one. -/
def digitVal (c : Char) : Option Nat :=
  if 48 ≤ c.toNat ∧ c.toNat ≤ 57 then some (c.toNat - 48) else none

/-- Left-to-right decimal accumulation over characters; `none` on the
first non-digit. -/
def parseDigitsAux : List Char → Nat → Option Nat
  | [], acc => some acc
  | c :: rest, acc =>
    match digitVal c with
    | none => none
    | some d => parseDigitsAux rest (acc * 10 + d)

/-- Parse a non-empty all-digits string as a natural number. -/
def parseCanonNat (s : String) : Option Nat :=
  match s.data with
  | [] => none
  | l => parseDigitsAux l 0

/-- Whether a string is a canonical ECMAScript array-index key: the
decimal representation of an integer `0 ≤ n < 2^32 - 1` (the
`toString` round trip rules out leading zeros and any non-canonical
form). -/
def isArrayIndexKey (s : String) : Bool :=
  match parseCanonNat s with
  | some n => decide (n < 2 ^ 32 - 1) && (toString n == s)
  | none => false

/-- A value stored in — or produced by updating — a property of the
plain `{}` accumulator.  `num n` is a JS number.  `strv` is a
non-numeric string: it arises the first time `(acc[p] || 0) + 1` runs
with `acc[p]` inheriting a function (or the prototype object) from
`Object.prototype` — the truthy inherited value makes `+ 1` string
concatenation — and every later `+ 1` on it concatenates again.  The
string's content is irrelevant to control flow: it is always truthy,
and `count > maxCount` coerces it through `ToNumber` to `NaN`, so the
comparison is always false. -/
inductive PropVal where
  | num (n : Nat)
  | strv
deriving DecidableEq, Repr

/-- The function-valued own property names of `Object.prototype`, which
a plain `{}` accumulator inherits (each is a truthy function when read
through an uninitialised key).  The accessor `__proto__` is handled
separately: its inherited setter never creates an own property. -/
def objectPrototypeKeys : List String :=
  ["constructor", "hasOwnProperty", "isPrototypeOf", "propertyIsEnumerable",
   "toLocaleString", "toString", "valueOf", "__defineGetter__", "__defineSetter__",
   "__lookupGetter__", "__lookupSetter__"]

/-- A preparation string that behaves as a plain data key of the `{}`
accumulator: neither `__proto__` nor an inherited function-valued
property name. -/
def cleanPrep (p : String) : Bool :=
  !(p == "__proto__") && !(objectPrototypeKeys.contains p)

/-- One step of the `reduce` of `calculateMostCommonPreparation`:
`acc[coffee.preparation] = (acc[coffee.preparation] || 0) + 1` on a
plain `{}` accumulator.  Reading an absent own property falls back to
`Object.prototype`: an inherited function (or the `__proto__` accessor's
prototype object) is truthy, so `+ 1` concatenates into a non-numeric
string (`strv`); on a genuinely absent key the read is `undefined`,
`|| 0` applies, and the count starts at `num 1`.  Writing to
`__proto__` invokes the inherited setter, which creates no own
property (and ignores a non-object value); every other key becomes or
updates an own property in insertion order. -/
def addPrepCount (acc : List (String × PropVal)) (c : CoffeeRec) :
    List (String × PropVal) :=
  let newVal : PropVal :=
    match acc.find? (fun e => e.1 == c.preparation) with
    | some (_, .num n) => .num (n + 1)
    | some (_, .strv) => .strv
    | none => if cleanPrep c.preparation then .num 1 else .strv
  if c.preparation == "__proto__" then acc
  else if acc.any (fun e => e.1 == c.preparation) then
    acc.map (fun e => if e.1 == c.preparation then (e.1, newVal) else e)
  else acc ++ [(c.preparation, newVal)]

/-- The preparation-count accumulator (own properties only), in
key-insertion order. -/
def prepCounts (cs : List CoffeeRec) : List (String × PropVal) :=
  cs.foldl addPrepCount []

/-- `Object.entries` enumeration order: array-index keys first in
ascending numeric order, then the remaining keys in insertion order. -/
def jsEntries (l : List (String × PropVal)) : List (String × PropVal) :=
  (l.filter (fun e => isArrayIndexKey e.1)).insertionSort
      (fun a b => ((parseCanonNat a.1).getD 0) ≤ ((parseCanonNat b.1).getD 0))
    ++ l.filter (fun e => !(isArrayIndexKey e.1))

instance : IsTotal (String × PropVal)
    (fun a b : String × PropVal => ((parseCanonNat a.1).getD 0) ≤ ((parseCanonNat b.1).getD 0)) :=
  ⟨fun a b => Nat.le_total ((parseCanonNat a.1).getD 0) ((parseCanonNat b.1).getD 0)⟩

instance : IsTrans (String × PropVal)
    (fun a b : String × PropVal => ((parseCanonNat a.1).getD 0) ≤ ((parseCanonNat b.1).getD 0)) :=
  ⟨fun _ _ _ hab hbc => Nat.le_trans hab hbc⟩

/-- The numeric entries of the accumulator, keeping enumeration order:
the entries whose value is still a JS number.  String-valued entries
never update the scan below, since `stringCount > maxCount` compares
`NaN` and is false. -/
def numEntries (l : List (String × PropVal)) : List (String × Nat) :=
  l.filterMap (fun e =>
    match e.2 with
    | .num n => some (e.1, n)
    | .strv => none)

/-- The `for (const [preparation, count] of Object.entries(...))` scan
keeping the first entry whose count strictly exceeds the running
maximum (which starts at 0 with `mostCommon = null`); a string-valued
count compares `NaN > maxCount`, hence never wins. -/
def bestPrepScan (entries : List (String × PropVal)) : Option String × Nat :=
  entries.foldl
    (fun best e =>
      match e.2 with
      | .num n => if best.2 < n then (some e.1, n) else best
      | .strv => best)
    (none, 0)

/-- `calculateMostCommonPreparation`: `null` on the empty list,
otherwise the scan over the enumeration-ordered preparation counts. -/
def calculateMostCommonPreparation (cs : List CoffeeRec) : Option String :=
  if cs.isEmpty then none
  else (bestPrepScan (jsEntries (prepCounts cs))).1

/-! ### Spec-side statistics definitions (for refinement comparison).

These two definitions follow the words of the specification, not the
source; they exist only to be compared with the embedded code. -/

/-- Number of distinct `(name, brand)` pairs — the number of groups the
spec's "group by (name, brand) pair" produces. -/
def distinctNameBrandPairs (cs : List CoffeeRec) : Nat :=
  (cs.map (fun c => (c.name, c.brand))).dedup.length

/-- The entries' preparation values, in entry order. -/
def prepList (cs : List CoffeeRec) : List String :=
  cs.map (fun c => c.preparation)

/-- The preparation occurrence count of `p` among the entries. -/
def prepOccCount (cs : List CoffeeRec) (p : String) : Nat :=
  (prepList cs).count p

/-- The spec's mode with first-seen tie-breaking: the first preparation,
in entry order, whose occurrence count is maximal. -/
def firstSeenMode (cs : List CoffeeRec) : Option String :=
  (prepList cs).find?
    (fun p => decide (∀ q ∈ prepList cs, prepOccCount cs q ≤ prepOccCount cs p))

/-- The entries' preparation values that act as plain data keys of the
accumulator (neither `__proto__` nor an `Object.prototype` property
name), in entry order. -/
def cleanPrepList (cs : List CoffeeRec) : List String :=
  (prepList cs).filter cleanPrep

/-- The first plain-data-key preparation, in entry order, whose
occurrence count among the plain-data-key preparations is maximal. -/
def firstSeenCleanMode (cs : List CoffeeRec) : Option String :=
  (cleanPrepList cs).find?
    (fun p => decide (∀ q ∈ cleanPrepList cs,
      (cleanPrepList cs).count q ≤ (cleanPrepList cs).count p))

/-- First-occurrence deduplication, written as the fold that mirrors how
the accumulator object collects its keys. -/
def dedupFirst (l : List String) : List String :=
  l.foldl (fun ks p => if p ∈ ks then ks else ks ++ [p]) []

/-- First-occurrence deduplication, recursive form (drop the later
copies of the head, keep going). -/
def dedupF : List String → List String
  | [] => []
  | p :: l => p :: dedupF (l.filter (fun q => !(q == p)))
termination_by l => l.length
decreasing_by
  simp_wf
  exact Nat.lt_succ_of_le (List.length_filter_le _ _)

/-- Correctness of a statistics accumulator with respect to the entries
already folded: group keys are distinct, each group carries the exact
occurrence count and rating sum (and their quotient as average) of its
key among the processed entries, every processed entry's key has a
group, and every group's key arose from a processed entry. -/
def groupsSpec (processed : List CoffeeRec) (acc : List AggregatedCoffee) : Prop :=
  (acc.map aggKey).Nodup
  ∧ (∀ g ∈ acc,
      g.count = (processed.filter (fun c => statsKey c == aggKey g)).length
      ∧ g.rating = ((processed.filter (fun c => statsKey c == aggKey g)).map
          (fun c => (c.rating : Rat))).sum
      ∧ g.avgRating = g.rating / (g.count : Rat))
  ∧ (∀ c ∈ processed, statsKey c ∈ acc.map aggKey)
  ∧ (∀ g ∈ acc, aggKey g ∈ processed.map statsKey)

/-- Correctness of the preparation-count accumulator with respect to the
entries already folded: keys are distinct and occur among the processed
preparations; a numeric entry belongs to a plain data key and carries
its exact occurrence count; a string-valued entry belongs to an
inherited (`Object.prototype`) key other than `__proto__`; every
processed preparation except `__proto__` has an own entry; and the
numeric entries' keys are exactly the first-occurrence-ordered distinct
plain-data-key preparations. -/
def prepCountsSpec (processed : List CoffeeRec) (acc : List (String × PropVal)) : Prop :=
  (acc.map Prod.fst).Nodup
  ∧ (∀ e ∈ acc, e.1 ∈ prepList processed
      ∧ (∀ n, e.2 = .num n → cleanPrep e.1 = true ∧ n = (prepList processed).count e.1)
      ∧ (e.2 = .strv → cleanPrep e.1 = false ∧ ¬ e.1 = "__proto__"))
  ∧ (∀ p ∈ prepList processed, ¬ p = "__proto__" → p ∈ acc.map Prod.fst)
  ∧ (numEntries acc).map Prod.fst = dedupFirst ((prepList processed).filter cleanPrep)

/-- A sample coffee entry (used to build concrete stores). -/
def sampleCoffee (i : Nat) : CoffeeRec :=
  { id := i, userId := 1, name := "n", brand := "b", preparation := "espresso",
    shots := 1, flavor := "f", rating := 4, description := "d", createdAt := i }

/-- A concrete store with 25 coffee entries for user 1 (the spec's
pagination scenario). -/
def samplePaginationDB : DB :=
  { users := [{ id := 1, email := "a@x", isVerified := true }],
    passwords := [], passwordResets := [], emailConfirmations := [],
    coffees := (List.range 25).map sampleCoffee }

/-- The ways any single token-touching operation can change a token
table: leave it alone, delete rows (a `filter`), or delete a user's rows
and append one fresh row for that user. -/
def tokenListEvolves (orig l : List TokenRec) : Prop :=
  l = orig
  ∨ (∃ p : TokenRec → Bool, l = orig.filter p)
  ∨ (∃ uid tok exp, l = orig.filter (fun r => !(r.userId == uid))
      ++ [{ token := tok, userId := uid, expiresAt := exp }])

/-! ## Helper lemmas -/

theorem find?_filter_neg {α : Type} (l : List α) (p : α → Bool) :
    (l.filter (fun a => !(p a))).find? p = none := by
  rw [List.find?_eq_none]
  intro a ha
  simpa using (List.mem_filter.1 ha).2

theorem getUserById_mem_and_id {db : DB} {i : Nat} {u : UserRec}
    (h : getUserById db i = some u) : u ∈ db.users ∧ u.id = i := by
  unfold getUserById at h
  refine ⟨List.mem_of_find?_eq_some h, ?_⟩
  simpa using List.find?_some h

theorem find?_id_eq_of_mem {l : List UserRec} {u : UserRec}
    (hids : (l.map (fun x => x.id)).Nodup) (hu : u ∈ l) :
    l.find? (fun x => x.id == u.id) = some u := by
  induction l with
  | nil => cases hu
  | cons a l ih =>
    simp only [List.map_cons, List.nodup_cons] at hids
    rcases List.mem_cons.1 hu with rfl | hmem
    · exact List.find?_cons_of_pos _ (by simp)
    · have hne : ¬ ((fun x : UserRec => x.id == u.id) a) = true := by
        intro h
        have heq : a.id = u.id := by simpa using h
        apply hids.1
        rw [heq]
        exact List.mem_map_of_mem (fun x => x.id) hmem
      rw [@List.find?_cons_of_neg _ (fun x : UserRec => x.id == u.id) a l hne]
      exact ih hids.2 hmem

theorem getUserById_of_mem {db : DB} {u : UserRec}
    (hids : (db.users.map (fun x => x.id)).Nodup) (hu : u ∈ db.users) :
    getUserById db u.id = some u :=
  find?_id_eq_of_mem hids hu

/-! ## Claim theorems -/

/-- C5: `verifyLogin` returns `null` when the user or its password row
is missing, the distinguished `needsVerification` value (distinct from
`null` and from every success) when the account is unverified, `null`
when the password comparison fails on a verified account, and the user
with the password stripped when it succeeds. -/
theorem verifyLogin_cases (compare : String → String → Bool) (db : DB)
    (email password : String) :
    (getUserByEmail db email = none →
      verifyLogin compare db email password = .invalid)
    ∧ (∀ u, getUserByEmail db email = some u → getPasswordFor db u.id = none →
        verifyLogin compare db email password = .invalid)
    ∧ (∀ u p, getUserByEmail db email = some u → getPasswordFor db u.id = some p →
        u.isVerified = false →
        verifyLogin compare db email password = .needsVerification)
    ∧ (∀ u p, getUserByEmail db email = some u → getPasswordFor db u.id = some p →
        u.isVerified = true → compare password p.hash = false →
        verifyLogin compare db email password = .invalid)
    ∧ (∀ u p, getUserByEmail db email = some u → getPasswordFor db u.id = some p →
        u.isVerified = true → compare password p.hash = true →
        verifyLogin compare db email password = .success u)
    ∧ (LoginResult.needsVerification ≠ LoginResult.invalid
        ∧ ∀ v, LoginResult.needsVerification ≠ LoginResult.success v) := by
  refine ⟨?_, ?_, ?_, ?_, ?_, by simp, by simp⟩
  · intro h; simp [verifyLogin, h]
  · intro u hu hp; simp [verifyLogin, hu, hp]
  · intro u p hu hp hv; simp [verifyLogin, hu, hp, hv]
  · intro u p hu hp hv hc; simp [verifyLogin, hu, hp, hv, hc]
  · intro u p hu hp hv hc; simp [verifyLogin, hu, hp, hv, hc]

/-- Witness for C5: on a concrete store, an unverified account with a
matching password yields `needsVerification`, and a verified one yields
the stripped user. -/
theorem verifyLogin_cases_witness :
    verifyLogin (fun _ _ => true)
      { users := [{ id := 1, email := "a@x", isVerified := false }],
        passwords := [{ userId := 1, hash := "h" }],
        passwordResets := [], emailConfirmations := [], coffees := [] }
      "a@x" "pw" = LoginResult.needsVerification
    ∧ verifyLogin (fun _ _ => true)
      { users := [{ id := 1, email := "a@x", isVerified := true }],
        passwords := [{ userId := 1, hash := "h" }],
        passwordResets := [], emailConfirmations := [], coffees := [] }
      "a@x" "pw" = LoginResult.success { id := 1, email := "a@x", isVerified := true } := by
  constructor
  · exact (verifyLogin_cases (fun _ _ => true) _ "a@x" "pw").2.2.1
      { id := 1, email := "a@x", isVerified := false } { userId := 1, hash := "h" }
      (by decide) (by decide) rfl
  · exact (verifyLogin_cases (fun _ _ => true) _ "a@x" "pw").2.2.2.2.1
      { id := 1, email := "a@x", isVerified := true } { userId := 1, hash := "h" }
      (by decide) (by decide) rfl rfl

/-- C1: for both token kinds, verification returns `null` exactly when
the token is absent or strictly past its expiry; in the expired case the
row is deleted, so any later verification of the same identifier also
returns `null`; in the valid case the stored row is returned together
with its owning user. -/
theorem tokenVerification_spec (now : Nat) (db : DB) (t : String) :
    ((verifyPasswordResetToken now db t).1 = none ↔
      (db.passwordResets.find? (fun r => r.token == t) = none ∨
       ∃ r, db.passwordResets.find? (fun r => r.token == t) = some r ∧ r.expiresAt < now))
    ∧ (∀ r, db.passwordResets.find? (fun r => r.token == t) = some r → r.expiresAt < now →
        (verifyPasswordResetToken now db t).2.passwordResets.find? (fun x => x.token == t) = none
        ∧ ∀ now2, (verifyPasswordResetToken now2 (verifyPasswordResetToken now db t).2 t).1 = none)
    ∧ (∀ r, db.passwordResets.find? (fun r => r.token == t) = some r → ¬ r.expiresAt < now →
        (verifyPasswordResetToken now db t).1 = some (r, getUserById db r.userId)
        ∧ (verifyPasswordResetToken now db t).2 = db)
    ∧ (∀ r u, db.passwordResets.find? (fun r => r.token == t) = some r → ¬ r.expiresAt < now →
        getUserById db r.userId = some u →
        (verifyPasswordResetToken now db t).1 = some (r, some u)
        ∧ u ∈ db.users ∧ u.id = r.userId)
    ∧ ((verifyEmailConfirmationToken now db t).1 = none ↔
      (db.emailConfirmations.find? (fun r => r.token == t) = none ∨
       ∃ r, db.emailConfirmations.find? (fun r => r.token == t) = some r ∧ r.expiresAt < now))
    ∧ (∀ r, db.emailConfirmations.find? (fun r => r.token == t) = some r → r.expiresAt < now →
        (verifyEmailConfirmationToken now db t).2.emailConfirmations.find? (fun x => x.token == t) = none
        ∧ ∀ now2, (verifyEmailConfirmationToken now2 (verifyEmailConfirmationToken now db t).2 t).1 = none)
    ∧ (∀ r, db.emailConfirmations.find? (fun r => r.token == t) = some r → ¬ r.expiresAt < now →
        (verifyEmailConfirmationToken now db t).1 = some (r, getUserById db r.userId)
        ∧ (verifyEmailConfirmationToken now db t).2 = db)
    ∧ (∀ r u, db.emailConfirmations.find? (fun r => r.token == t) = some r → ¬ r.expiresAt < now →
        getUserById db r.userId = some u →
        (verifyEmailConfirmationToken now db t).1 = some (r, some u)
        ∧ u ∈ db.users ∧ u.id = r.userId) := by
  have hdelR : (db.passwordResets.filter (fun r => !(r.token == t))).find?
      (fun x => x.token == t) = none := find?_filter_neg _ _
  have hdelE : (db.emailConfirmations.filter (fun r => !(r.token == t))).find?
      (fun x => x.token == t) = none := find?_filter_neg _ _
  refine ⟨?_, ?_, ?_, ?_, ?_, ?_, ?_, ?_⟩
  · unfold verifyPasswordResetToken
    cases h : db.passwordResets.find? (fun r => r.token == t) with
    | none => simp
    | some r =>
      by_cases he : r.expiresAt < now
      · simp [he]
      · simp [he]
  · intro r hr he
    unfold verifyPasswordResetToken
    rw [hr]
    simp only [if_pos he]
    refine ⟨hdelR, fun now2 => ?_⟩
    rw [hdelR]
  · intro r hr he
    unfold verifyPasswordResetToken
    rw [hr]
    simp [he]
  · intro r u hr he hu
    have hm := getUserById_mem_and_id hu
    unfold verifyPasswordResetToken
    rw [hr]
    simp [he, hu, hm.1, hm.2]
  · unfold verifyEmailConfirmationToken
    cases h : db.emailConfirmations.find? (fun r => r.token == t) with
    | none => simp
    | some r =>
      by_cases he : r.expiresAt < now
      · simp [he]
      · simp [he]
  · intro r hr he
    unfold verifyEmailConfirmationToken
    rw [hr]
    simp only [if_pos he]
    refine ⟨hdelE, fun now2 => ?_⟩
    rw [hdelE]
  · intro r hr he
    unfold verifyEmailConfirmationToken
    rw [hr]
    simp [he]
  · intro r u hr he hu
    have hm := getUserById_mem_and_id hu
    unfold verifyEmailConfirmationToken
    rw [hr]
    simp [he, hu, hm.1, hm.2]

/-- Witness for C1: on a concrete store, an expired reset token
verifies to `null` (and stays `null` afterwards), a live confirmation
token verifies to its row with the owning user. -/
theorem tokenVerification_spec_witness :
    ((verifyPasswordResetToken 20
        { users := [{ id := 1, email := "a@x", isVerified := true }],
          passwords := [],
          passwordResets := [{ token := "t1", userId := 1, expiresAt := 10 }],
          emailConfirmations := [{ token := "e1", userId := 1, expiresAt := 10 }],
          coffees := [] } "t1").1 = none)
    ∧ (∀ now2, (verifyPasswordResetToken now2
        (verifyPasswordResetToken 20
          { users := [{ id := 1, email := "a@x", isVerified := true }],
            passwords := [],
            passwordResets := [{ token := "t1", userId := 1, expiresAt := 10 }],
            emailConfirmations := [{ token := "e1", userId := 1, expiresAt := 10 }],
            coffees := [] } "t1").2 "t1").1 = none)
    ∧ ((verifyEmailConfirmationToken 5
        { users := [{ id := 1, email := "a@x", isVerified := true }],
          passwords := [],
          passwordResets := [{ token := "t1", userId := 1, expiresAt := 10 }],
          emailConfirmations := [{ token := "e1", userId := 1, expiresAt := 10 }],
          coffees := [] } "e1").1 =
        some ({ token := "e1", userId := 1, expiresAt := 10 },
              some { id := 1, email := "a@x", isVerified := true })) := by
  have h1 := (tokenVerification_spec 20
    { users := [{ id := 1, email := "a@x", isVerified := true }],
      passwords := [],
      passwordResets := [{ token := "t1", userId := 1, expiresAt := 10 }],
      emailConfirmations := [{ token := "e1", userId := 1, expiresAt := 10 }],
      coffees := [] } "t1").2.1
    { token := "t1", userId := 1, expiresAt := 10 } (by decide) (by decide)
  have h2 := (tokenVerification_spec 5
    { users := [{ id := 1, email := "a@x", isVerified := true }],
      passwords := [],
      passwordResets := [{ token := "t1", userId := 1, expiresAt := 10 }],
      emailConfirmations := [{ token := "e1", userId := 1, expiresAt := 10 }],
      coffees := [] } "e1").2.2.2.2.2.2.2
    { token := "e1", userId := 1, expiresAt := 10 }
    { id := 1, email := "a@x", isVerified := true } (by decide) (by decide) (by decide)
  have h0 := (tokenVerification_spec 20
    { users := [{ id := 1, email := "a@x", isVerified := true }],
      passwords := [],
      passwordResets := [{ token := "t1", userId := 1, expiresAt := 10 }],
      emailConfirmations := [{ token := "e1", userId := 1, expiresAt := 10 }],
      coffees := [] } "t1").1.2
    (Or.inr ⟨{ token := "t1", userId := 1, expiresAt := 10 }, by decide, by decide⟩)
  exact ⟨h0, h1.2, h2.1⟩

/-- C9: coffee operations are scoped by the owning user id: with unique
coffee ids, a `deleteCoffee` or `updateCoffee` call naming the id of a
coffee owned by `A` but the user id `B ≠ A` deletes zero rows /
surfaces the Prisma not-found error, and leaves the database (so `A`'s
entry and every other user's entries) unchanged. -/
theorem coffeeOps_userScoped (db : DB) (id A B : Nat) (c : CoffeeRec) (d : CoffeeData)
    (hids : (db.coffees.map (fun x => x.id)).Nodup)
    (hc : c ∈ db.coffees) (hcid : c.id = id) (hcu : c.userId = A) (hBA : B ≠ A) :
    deleteCoffee db id B = (0, db)
    ∧ updateCoffee db id B d = (.thrown, db) := by
  have hfalse : ∀ x ∈ db.coffees, (x.id == id && x.userId == B) = false := by
    intro x hx
    by_cases hxi : x.id = id
    · have hxc : x = c := List.inj_on_of_nodup_map hids hx hc (by rw [hxi, hcid])
      subst hxc
      have : ¬ x.userId = B := by rw [hcu]; exact fun h => hBA h.symm
      simp [this]
    · simp [hxi]
  have h1 : db.coffees.filter (fun x => x.id == id && x.userId == B) = [] := by
    rw [List.filter_eq_nil_iff]
    intro a ha
    simp [hfalse a ha]
  have h2 : db.coffees.filter (fun x => !(x.id == id && x.userId == B)) = db.coffees := by
    rw [List.filter_eq_self]
    intro a ha
    simp [hfalse a ha]
  have h3 : db.coffees.find? (fun x => x.id == id && x.userId == B) = none := by
    rw [List.find?_eq_none]
    intro a ha
    simp [hfalse a ha]
  constructor
  · unfold deleteCoffee
    rw [h1, h2]
    rfl
  · unfold updateCoffee
    rw [h3]

/-- Witness for C9: a concrete two-user store where user 2 tries to
delete / update user 1's coffee. -/
theorem coffeeOps_userScoped_witness :
    deleteCoffee
      { users := [], passwords := [], passwordResets := [], emailConfirmations := [],
        coffees := [{ id := 7, userId := 1, name := "n", brand := "b",
                      preparation := "espresso", shots := 1, flavor := "f",
                      rating := 5, description := "d", createdAt := 0 }] } 7 2 =
      (0, { users := [], passwords := [], passwordResets := [], emailConfirmations := [],
            coffees := [{ id := 7, userId := 1, name := "n", brand := "b",
                          preparation := "espresso", shots := 1, flavor := "f",
                          rating := 5, description := "d", createdAt := 0 }] })
    ∧ updateCoffee
      { users := [], passwords := [], passwordResets := [], emailConfirmations := [],
        coffees := [{ id := 7, userId := 1, name := "n", brand := "b",
                      preparation := "espresso", shots := 1, flavor := "f",
                      rating := 5, description := "d", createdAt := 0 }] } 7 2
      { name := "n2", brand := "b2", preparation := "v60", shots := 2, flavor := "f2",
        rating := 1, description := "d2" } =
      (.thrown, { users := [], passwords := [], passwordResets := [], emailConfirmations := [],
                  coffees := [{ id := 7, userId := 1, name := "n", brand := "b",
                                preparation := "espresso", shots := 1, flavor := "f",
                                rating := 5, description := "d", createdAt := 0 }] }) :=
  coffeeOps_userScoped _ 7 1 2
    { id := 7, userId := 1, name := "n", brand := "b", preparation := "espresso",
      shots := 1, flavor := "f", rating := 5, description := "d", createdAt := 0 }
    { name := "n2", brand := "b2", preparation := "v60", shots := 2, flavor := "f2",
      rating := 1, description := "d2" }
    (by decide) (by decide) rfl rfl (by decide)

/-- C10: issue-then-verify round trip: when `createPasswordResetToken`
succeeds for an existing user with a fresh token identifier, it returns
that user with a token expiring five minutes after issuance, and
verification of that identifier at any time up to and including the
expiry instant returns the stored token with its owning user. -/
theorem createThenVerify_roundTrip (now : Nat) (tok : String) (db : DB) (email : String)
    (u : UserRec)
    (hu : getUserByEmail db email = some u)
    (hfresh : ∀ r ∈ db.passwordResets, r.token ≠ tok)
    (hids : (db.users.map (fun x => x.id)).Nodup) :
    (createPasswordResetToken now tok db email).1 =
      .ok (some (u, { token := tok, userId := u.id, expiresAt := now + 5 * 60 }))
    ∧ ∀ now2, now2 ≤ now + 5 * 60 →
        (verifyPasswordResetToken now2 (createPasswordResetToken now tok db email).2 tok).1 =
          some ({ token := tok, userId := u.id, expiresAt := now + 5 * 60 }, some u) := by
  have hnocol : (db.passwordResets.filter (fun r => !(r.userId == u.id))).any
      (fun r => r.token == tok) = false := by
    rw [List.any_eq_false]
    intro r hr
    simp [hfresh r (List.mem_filter.1 hr).1]
  have hcreate : createPasswordResetToken now tok db email =
      (.ok (some (u, { token := tok, userId := u.id, expiresAt := now + 5 * 60 })),
       { db with passwordResets :=
          db.passwordResets.filter (fun r => !(r.userId == u.id))
            ++ [{ token := tok, userId := u.id, expiresAt := now + 5 * 60 }] }) := by
    unfold createPasswordResetToken
    rw [hu]
    simp only [hnocol]
    rfl
  refine ⟨by rw [hcreate], fun now2 hle => ?_⟩
  rw [hcreate]
  unfold verifyPasswordResetToken
  have hleft : (db.passwordResets.filter (fun r => !(r.userId == u.id))).find?
      (fun r => r.token == tok) = none := by
    rw [List.find?_eq_none]
    intro r hr
    simp [hfresh r (List.mem_filter.1 hr).1]
  rw [show ({ db with passwordResets :=
      db.passwordResets.filter (fun r => !(r.userId == u.id))
        ++ [{ token := tok, userId := u.id, expiresAt := now + 5 * 60 }] } : DB).passwordResets =
      db.passwordResets.filter (fun r => !(r.userId == u.id))
        ++ [{ token := tok, userId := u.id, expiresAt := now + 5 * 60 }] from rfl]
  rw [List.find?_append, hleft]
  have hfind : (([{ token := tok, userId := u.id, expiresAt := now + 5 * 60 }] :
      List TokenRec).find? (fun r => r.token == tok)) =
      some { token := tok, userId := u.id, expiresAt := now + 5 * 60 } := by
    simp [List.find?]
  rw [Option.none_or, hfind]
  have hexp : ¬ (({ token := tok, userId := u.id, expiresAt := now + 5 * 60 } :
      TokenRec).expiresAt < now2) := by
    simpa using hle
  simp only [if_neg hexp]
  have husers : getUserById
      { db with passwordResets :=
        db.passwordResets.filter (fun r => !(r.userId == u.id))
          ++ [{ token := tok, userId := u.id, expiresAt := now + 5 * 60 }] }
      (({ token := tok, userId := u.id, expiresAt := now + 5 * 60 } : TokenRec).userId) =
      some u := by
    have hmem : u ∈ db.users := List.mem_of_find?_eq_some hu
    exact getUserById_of_mem hids hmem
  rw [husers]

/-- Witness for C10: a concrete issue-then-verify run at the expiry
instant itself. -/
theorem createThenVerify_roundTrip_witness :
    (verifyPasswordResetToken 310
      (createPasswordResetToken 10 "fresh"
        { users := [{ id := 1, email := "a@x", isVerified := true }],
          passwords := [{ userId := 1, hash := "h" }],
          passwordResets := [{ token := "old", userId := 1, expiresAt := 9 }],
          emailConfirmations := [], coffees := [] } "a@x").2 "fresh").1 =
      some ({ token := "fresh", userId := 1, expiresAt := 310 },
            some { id := 1, email := "a@x", isVerified := true }) :=
  (createThenVerify_roundTrip 10 "fresh"
    { users := [{ id := 1, email := "a@x", isVerified := true }],
      passwords := [{ userId := 1, hash := "h" }],
      passwordResets := [{ token := "old", userId := 1, expiresAt := 9 }],
      emailConfirmations := [], coffees := [] } "a@x"
    { id := 1, email := "a@x", isVerified := true }
    (by decide) (by decide) (by decide)).2 310 (by decide)

/-- C6 counterexample: when sending the reset email fails, the action
answers 500 for an existing account but the generic success message for
an absent one, so the responses differ and reveal account existence. -/
theorem forgotPassword_uniformity_counterexample :
    (forgotPasswordAction (fun _ => true) false 0 "tok"
      { users := [{ id := 1, email := "a@x", isVerified := true }],
        passwords := [], passwordResets := [], emailConfirmations := [],
        coffees := [] } "a@x").1 = .ok sendFailResp
    ∧ (forgotPasswordAction (fun _ => true) false 0 "tok"
      { users := [{ id := 1, email := "a@x", isVerified := true }],
        passwords := [], passwordResets := [], emailConfirmations := [],
        coffees := [] } "b@x").1 = .ok genericSuccessResp
    ∧ sendFailResp ≠ genericSuccessResp := by
  refine ⟨?_, ?_, by decide⟩
  · rfl
  · rfl

/-- C6 (amended): provided the reset email is sent successfully, the
action's response is the same generic success for an existing and for an
absent account; for an absent account it is that generic success
whatever the email service would do. -/
theorem forgotPassword_uniform_when_email_sends (validate : String → Bool)
    (emailOk : Bool) (now : Nat) (tok : String) (db : DB) (e1 e2 : String) (u : UserRec)
    (hv1 : validate e1 = true) (hv2 : validate e2 = true)
    (h1 : getUserByEmail db e1 = some u) (h2 : getUserByEmail db e2 = none)
    (hfresh : ∀ r ∈ db.passwordResets, r.token ≠ tok) :
    (forgotPasswordAction validate true now tok db e1).1 = .ok genericSuccessResp
    ∧ (forgotPasswordAction validate emailOk now tok db e2).1 = .ok genericSuccessResp := by
  constructor
  · have hnocol : (db.passwordResets.filter (fun r => !(r.userId == u.id))).any
        (fun r => r.token == tok) = false := by
      rw [List.any_eq_false]
      intro r hr
      simp [hfresh r (List.mem_filter.1 hr).1]
    unfold forgotPasswordAction
    rw [hv1]
    simp only [Bool.not_true, Bool.false_eq_true, if_false, h1]
    unfold createPasswordResetToken
    rw [h1]
    simp only [hnocol]
    rfl
  · unfold forgotPasswordAction
    rw [hv2]
    simp only [Bool.not_true, Bool.false_eq_true, if_false, h2]

/-- Witness for C6's amended theorem: a concrete store where both
responses are the generic success. -/
theorem forgotPassword_uniform_when_email_sends_witness :
    (forgotPasswordAction (fun _ => true) true 0 "tok"
      { users := [{ id := 1, email := "a@x", isVerified := true }],
        passwords := [], passwordResets := [], emailConfirmations := [],
        coffees := [] } "a@x").1 = .ok genericSuccessResp
    ∧ (forgotPasswordAction (fun _ => true) true 0 "tok"
      { users := [{ id := 1, email := "a@x", isVerified := true }],
        passwords := [], passwordResets := [], emailConfirmations := [],
        coffees := [] } "b@x").1 = .ok genericSuccessResp :=
  forgotPassword_uniform_when_email_sends (fun _ => true) true 0 "tok"
    { users := [{ id := 1, email := "a@x", isVerified := true }],
      passwords := [], passwordResets := [], emailConfirmations := [],
      coffees := [] } "a@x" "b@x" { id := 1, email := "a@x", isVerified := true }
    rfl rfl (by decide) (by decide) (by decide)

/-- C3: `resetPassword` leaves every password hash unchanged and returns
`null` when the token is absent or expired; on a live token (whose owner
has a password row) it replaces exactly the owner's hash with the hash
of the new password, deletes the reset token and returns the token's
owning user. -/
theorem resetPassword_spec (now : Nat) (hf : String → String) (db : DB) (t pw : String) :
    (db.passwordResets.find? (fun r => r.token == t) = none →
      resetPassword now hf db t pw = (.ok none, db))
    ∧ (∀ r, db.passwordResets.find? (fun r => r.token == t) = some r → r.expiresAt < now →
        (resetPassword now hf db t pw).1 = .ok none
        ∧ (resetPassword now hf db t pw).2.passwords = db.passwords)
    ∧ (∀ r, db.passwordResets.find? (fun r => r.token == t) = some r → ¬ r.expiresAt < now →
        db.passwords.any (fun p => p.userId == r.userId) = true →
        (resetPassword now hf db t pw).1 = .ok (getUserById db r.userId)
        ∧ (resetPassword now hf db t pw).2.passwords =
            db.passwords.map
              (fun p => if p.userId == r.userId then { p with hash := hf pw } else p)
        ∧ (∀ p ∈ (resetPassword now hf db t pw).2.passwords,
            p.userId = r.userId → p.hash = hf pw)
        ∧ (∀ p ∈ (resetPassword now hf db t pw).2.passwords,
            p.userId ≠ r.userId → p ∈ db.passwords)
        ∧ (resetPassword now hf db t pw).2.passwordResets.find?
            (fun x => x.token == t) = none) := by
  refine ⟨?_, ?_, ?_⟩
  · intro h
    unfold resetPassword verifyPasswordResetToken
    rw [h]
  · intro r hr he
    unfold resetPassword verifyPasswordResetToken
    rw [hr]
    simp only [if_pos he]
    exact ⟨by trivial, by trivial⟩
  · intro r hr he hany
    have hres : resetPassword now hf db t pw =
        (.ok (getUserById db r.userId),
         { db with
            passwords := db.passwords.map
              (fun p => if p.userId == r.userId then { p with hash := hf pw } else p),
            passwordResets := db.passwordResets.filter (fun x => !(x.token == t)) }) := by
      unfold resetPassword verifyPasswordResetToken
      rw [hr]
      simp only [if_neg he]
      unfold updatePasswordHash
      rw [hany]
      rfl
    rw [hres]
    refine ⟨rfl, rfl, ?_, ?_, find?_filter_neg _ _⟩
    · intro p hp hpid
      rcases List.mem_map.1 hp with ⟨q, hq, hpe⟩
      by_cases hqid : q.userId = r.userId
      · rw [← hpe]
        simp [hqid]
      · exfalso
        apply hqid
        rw [← hpe] at hpid
        simp [hqid] at hpid
    · intro p hp hpid
      rcases List.mem_map.1 hp with ⟨q, hq, hpe⟩
      by_cases hqid : q.userId = r.userId
      · exfalso
        apply hpid
        rw [← hpe]
        simp [hqid]
      · rw [← hpe]
        simpa [hqid] using hq

/-- Witness for C3: a concrete run over a live token replaces the hash,
deletes the token and returns the user; a concrete expired run leaves
the password untouched. -/
theorem resetPassword_spec_witness :
    ((resetPassword 5 (fun s => s ++ "#")
      { users := [{ id := 1, email := "a@x", isVerified := true }],
        passwords := [{ userId := 1, hash := "old" }],
        passwordResets := [{ token := "t1", userId := 1, expiresAt := 10 }],
        emailConfirmations := [], coffees := [] } "t1" "npw").1 =
      .ok (some { id := 1, email := "a@x", isVerified := true }))
    ∧ ((resetPassword 5 (fun s => s ++ "#")
      { users := [{ id := 1, email := "a@x", isVerified := true }],
        passwords := [{ userId := 1, hash := "old" }],
        passwordResets := [{ token := "t1", userId := 1, expiresAt := 10 }],
        emailConfirmations := [], coffees := [] } "t1" "npw").2.passwords =
      [{ userId := 1, hash := "npw#" }])
    ∧ ((resetPassword 20 (fun s => s ++ "#")
      { users := [{ id := 1, email := "a@x", isVerified := true }],
        passwords := [{ userId := 1, hash := "old" }],
        passwordResets := [{ token := "t1", userId := 1, expiresAt := 10 }],
        emailConfirmations := [], coffees := [] } "t1" "npw").2.passwords =
      [{ userId := 1, hash := "old" }]) := by
  have hlive := (resetPassword_spec 5 (fun s => s ++ "#")
    { users := [{ id := 1, email := "a@x", isVerified := true }],
      passwords := [{ userId := 1, hash := "old" }],
      passwordResets := [{ token := "t1", userId := 1, expiresAt := 10 }],
      emailConfirmations := [], coffees := [] } "t1" "npw").2.2
    { token := "t1", userId := 1, expiresAt := 10 } (by decide) (by decide) (by decide)
  have hexp := (resetPassword_spec 20 (fun s => s ++ "#")
    { users := [{ id := 1, email := "a@x", isVerified := true }],
      passwords := [{ userId := 1, hash := "old" }],
      passwordResets := [{ token := "t1", userId := 1, expiresAt := 10 }],
      emailConfirmations := [], coffees := [] } "t1" "npw").2.1
    { token := "t1", userId := 1, expiresAt := 10 } (by decide) (by decide)
  refine ⟨?_, ?_, ?_⟩
  · rw [hlive.1]; rfl
  · rw [hlive.2.1]; rfl
  · rw [hexp.2]

theorem filter_userId_of_filter_not (l : List TokenRec) (uid : Nat) :
    (l.filter (fun r => !(r.userId == uid))).filter (fun r => r.userId == uid) = [] := by
  rw [List.filter_eq_nil_iff]
  intro a ha
  have h2 := (List.mem_filter.1 ha).2
  simp only [Bool.not_eq_eq_eq_not, Bool.not_true] at h2
  simp [h2]

theorem atMostOnePerUser_evolve {orig l : List TokenRec}
    (hs : tokenListEvolves orig l) (h : atMostOnePerUser orig) : atMostOnePerUser l := by
  rcases hs with rfl | ⟨p, rfl⟩ | ⟨uid0, tok, exp, rfl⟩
  · exact h
  · intro uid
    calc ((orig.filter p).filter (fun r => r.userId == uid)).length
        ≤ (orig.filter (fun r => r.userId == uid)).length :=
          ((List.filter_sublist orig).filter _).length_le
      _ ≤ 1 := h uid
  · intro uid2
    rw [List.filter_append, List.length_append]
    by_cases hu : uid2 = uid0
    · subst hu
      rw [filter_userId_of_filter_not]
      simp
    · have hleft : ((orig.filter (fun r => !(r.userId == uid0))).filter
          (fun r => r.userId == uid2)).length ≤ 1 :=
        le_trans ((List.filter_sublist orig).filter _).length_le (h uid2)
      have hne : ¬ uid0 = uid2 := fun h2 => hu h2.symm
      have hright : (([{ token := tok, userId := uid0, expiresAt := exp }] :
          List TokenRec).filter (fun r => r.userId == uid2)).length = 0 := by
        simp [hne]
      omega

theorem verifyReset_shapes (now : Nat) (db : DB) (t : String) :
    tokenListEvolves db.passwordResets (verifyPasswordResetToken now db t).2.passwordResets
    ∧ (verifyPasswordResetToken now db t).2.emailConfirmations = db.emailConfirmations := by
  unfold verifyPasswordResetToken
  cases hg : db.passwordResets.find? (fun r => r.token == t) with
  | none => exact ⟨Or.inl rfl, rfl⟩
  | some r =>
    by_cases he : r.expiresAt < now
    · simp only [if_pos he]
      exact ⟨Or.inr (Or.inl ⟨_, rfl⟩), by trivial⟩
    · simp only [if_neg he]
      exact ⟨Or.inl rfl, by trivial⟩

theorem verifyConfirm_shapes (now : Nat) (db : DB) (t : String) :
    tokenListEvolves db.emailConfirmations
      (verifyEmailConfirmationToken now db t).2.emailConfirmations
    ∧ (verifyEmailConfirmationToken now db t).2.passwordResets = db.passwordResets := by
  unfold verifyEmailConfirmationToken
  cases hg : db.emailConfirmations.find? (fun r => r.token == t) with
  | none => exact ⟨Or.inl rfl, rfl⟩
  | some r =>
    by_cases he : r.expiresAt < now
    · simp only [if_pos he]
      exact ⟨Or.inr (Or.inl ⟨_, rfl⟩), by trivial⟩
    · simp only [if_neg he]
      exact ⟨Or.inl rfl, by trivial⟩

theorem createReset_shapes (now : Nat) (tok : String) (db : DB) (email : String) :
    tokenListEvolves db.passwordResets
      (createPasswordResetToken now tok db email).2.passwordResets
    ∧ (createPasswordResetToken now tok db email).2.emailConfirmations =
        db.emailConfirmations := by
  unfold createPasswordResetToken
  cases hg : getUserByEmail db email with
  | none => exact ⟨Or.inl rfl, rfl⟩
  | some u =>
    by_cases hcol : (db.passwordResets.filter (fun r => !(r.userId == u.id))).any
        (fun r => r.token == tok) = true
    · simp only [hcol]
      exact ⟨Or.inr (Or.inl ⟨_, rfl⟩), by trivial⟩
    · simp only [Bool.eq_false_iff.2 hcol]
      exact ⟨Or.inr (Or.inr ⟨u.id, tok, now + 5 * 60, rfl⟩), by trivial⟩

theorem createConfirm_shapes (now : Nat) (tok : String) (db : DB) (uid : Nat) :
    tokenListEvolves db.emailConfirmations
      (createEmailConfirmationToken now tok db uid).2.emailConfirmations
    ∧ (createEmailConfirmationToken now tok db uid).2.passwordResets =
        db.passwordResets := by
  unfold createEmailConfirmationToken
  cases hg : getUserById db uid with
  | none => exact ⟨Or.inl rfl, rfl⟩
  | some u =>
    by_cases hcol : (db.emailConfirmations.filter (fun r => !(r.userId == u.id))).any
        (fun r => r.token == tok) = true
    · simp only [hcol]
      exact ⟨Or.inr (Or.inl ⟨_, rfl⟩), by trivial⟩
    · simp only [Bool.eq_false_iff.2 hcol]
      exact ⟨Or.inr (Or.inr ⟨u.id, tok, now + 24 * 60 * 60, rfl⟩), by trivial⟩

theorem resetPassword_shapes (now : Nat) (hf : String → String) (db : DB) (t pw : String) :
    tokenListEvolves db.passwordResets (resetPassword now hf db t pw).2.passwordResets
    ∧ (resetPassword now hf db t pw).2.emailConfirmations = db.emailConfirmations := by
  unfold resetPassword verifyPasswordResetToken
  cases hg : db.passwordResets.find? (fun r => r.token == t) with
  | none => exact ⟨Or.inl rfl, rfl⟩
  | some r =>
    by_cases he : r.expiresAt < now
    · simp only [if_pos he]
      exact ⟨Or.inr (Or.inl ⟨_, rfl⟩), by trivial⟩
    · simp only [if_neg he]
      unfold updatePasswordHash
      by_cases hany : db.passwords.any (fun p => p.userId == r.userId) = true
      · simp only [if_pos hany]
        exact ⟨Or.inr (Or.inl ⟨_, rfl⟩), by trivial⟩
      · simp only [if_neg hany]
        exact ⟨Or.inl rfl, by trivial⟩

theorem confirmUserEmail_shapes (now : Nat) (db : DB) (t : String) :
    tokenListEvolves db.emailConfirmations (confirmUserEmail now db t).2.emailConfirmations
    ∧ (confirmUserEmail now db t).2.passwordResets = db.passwordResets := by
  unfold confirmUserEmail verifyEmailConfirmationToken
  cases hg : db.emailConfirmations.find? (fun r => r.token == t) with
  | none => exact ⟨Or.inl rfl, rfl⟩
  | some r =>
    by_cases he : r.expiresAt < now
    · simp only [if_pos he]
      exact ⟨Or.inr (Or.inl ⟨_, rfl⟩), by trivial⟩
    · simp only [if_neg he]
      by_cases hany : db.users.any (fun u => u.id == r.userId) = true
      · simp only [if_pos hany]
        exact ⟨Or.inr (Or.inl ⟨_, rfl⟩), by trivial⟩
      · simp only [if_neg hany]
        exact ⟨Or.inl rfl, by trivial⟩

theorem applyTokenOp_preserves (hf : String → String) (db : DB) (op : TokenOp)
    (h : tokenInvariant db) : tokenInvariant (applyTokenOp hf db op) := by
  obtain ⟨hr, he⟩ := h
  cases op with
  | createReset now tok email =>
    have hs := createReset_shapes now tok db email
    exact ⟨atMostOnePerUser_evolve hs.1 hr, hs.2 ▸ he⟩
  | createConfirm now tok uid =>
    have hs := createConfirm_shapes now tok db uid
    exact ⟨hs.2 ▸ hr, atMostOnePerUser_evolve hs.1 he⟩
  | verifyReset now t =>
    have hs := verifyReset_shapes now db t
    exact ⟨atMostOnePerUser_evolve hs.1 hr, hs.2 ▸ he⟩
  | verifyConfirm now t =>
    have hs := verifyConfirm_shapes now db t
    exact ⟨hs.2 ▸ hr, atMostOnePerUser_evolve hs.1 he⟩
  | doResetPassword now t pw =>
    have hs := resetPassword_shapes now hf db t pw
    exact ⟨atMostOnePerUser_evolve hs.1 hr, hs.2 ▸ he⟩
  | doConfirmEmail now t =>
    have hs := confirmUserEmail_shapes now db t
    exact ⟨hs.2 ▸ hr, atMostOnePerUser_evolve hs.1 he⟩

theorem tokenInvariant_foldl (hf : String → String) (db : DB) (ops : List TokenOp)
    (h : tokenInvariant db) : tokenInvariant (ops.foldl (applyTokenOp hf) db) := by
  induction ops generalizing db with
  | nil => exact h
  | cons op ops ih => exact ih _ (applyTokenOp_preserves hf db op h)

theorem createReset_ok (now : Nat) (tok : String) (db : DB) (email : String)
    (u : UserRec) (hu : getUserByEmail db email = some u)
    (hfresh : ∀ r ∈ db.passwordResets, r.token ≠ tok) :
    createPasswordResetToken now tok db email =
      (.ok (some (u, { token := tok, userId := u.id, expiresAt := now + 5 * 60 })),
       { db with passwordResets :=
          db.passwordResets.filter (fun r => !(r.userId == u.id))
            ++ [{ token := tok, userId := u.id, expiresAt := now + 5 * 60 }] }) := by
  have hnocol : (db.passwordResets.filter (fun r => !(r.userId == u.id))).any
      (fun r => r.token == tok) = false := by
    rw [List.any_eq_false]
    intro r hr
    simp [hfresh r (List.mem_filter.1 hr).1]
  unfold createPasswordResetToken
  rw [hu]
  simp only [hnocol]
  rfl

theorem createConfirm_ok (now : Nat) (tok : String) (db : DB) (uid : Nat)
    (u : UserRec) (hu : getUserById db uid = some u)
    (hfresh : ∀ r ∈ db.emailConfirmations, r.token ≠ tok) :
    createEmailConfirmationToken now tok db uid =
      (.ok (some (u, { token := tok, userId := u.id, expiresAt := now + 24 * 60 * 60 })),
       { db with emailConfirmations :=
          db.emailConfirmations.filter (fun r => !(r.userId == u.id))
            ++ [{ token := tok, userId := u.id, expiresAt := now + 24 * 60 * 60 }] }) := by
  have hnocol : (db.emailConfirmations.filter (fun r => !(r.userId == u.id))).any
      (fun r => r.token == tok) = false := by
    rw [List.any_eq_false]
    intro r hr
    simp [hfresh r (List.mem_filter.1 hr).1]
  unfold createEmailConfirmationToken
  rw [hu]
  simp only [hnocol]
  rfl

theorem createReset_members (now : Nat) (tok : String) (db : DB) (email : String)
    (u : UserRec) (hu : getUserByEmail db email = some u) :
    ∀ x ∈ (createPasswordResetToken now tok db email).2.passwordResets,
      (x ∈ db.passwordResets ∧ x.userId ≠ u.id) ∨ x.token = tok := by
  unfold createPasswordResetToken
  rw [hu]
  by_cases hcol : (db.passwordResets.filter (fun r => !(r.userId == u.id))).any
      (fun r => r.token == tok) = true
  · simp only [hcol]
    intro x hx
    rcases List.mem_filter.1 hx with ⟨hxm, hxp⟩
    exact Or.inl ⟨hxm, by simpa using hxp⟩
  · simp only [Bool.eq_false_iff.2 hcol]
    intro x hx
    rcases List.mem_append.1 hx with hxl | hxr
    · rcases List.mem_filter.1 hxl with ⟨hxm, hxp⟩
      exact Or.inl ⟨hxm, by simpa using hxp⟩
    · rcases List.mem_singleton.1 hxr with rfl
      exact Or.inr rfl

theorem createConfirm_members (now : Nat) (tok : String) (db : DB) (uid : Nat)
    (u : UserRec) (hu : getUserById db uid = some u) :
    ∀ x ∈ (createEmailConfirmationToken now tok db uid).2.emailConfirmations,
      (x ∈ db.emailConfirmations ∧ x.userId ≠ u.id) ∨ x.token = tok := by
  unfold createEmailConfirmationToken
  rw [hu]
  by_cases hcol : (db.emailConfirmations.filter (fun r => !(r.userId == u.id))).any
      (fun r => r.token == tok) = true
  · simp only [hcol]
    intro x hx
    rcases List.mem_filter.1 hx with ⟨hxm, hxp⟩
    exact Or.inl ⟨hxm, by simpa using hxp⟩
  · simp only [Bool.eq_false_iff.2 hcol]
    intro x hx
    rcases List.mem_append.1 hx with hxl | hxr
    · rcases List.mem_filter.1 hxl with ⟨hxm, hxp⟩
      exact Or.inl ⟨hxm, by simpa using hxp⟩
    · rcases List.mem_singleton.1 hxr with rfl
      exact Or.inr rfl

/-- C2: issuing a token first deletes every token of that kind owned by
the user and creates exactly one with the kind's TTL (5 minutes for
reset, 24 hours for confirmation); the at-most-one-token-per-kind-
per-user invariant is preserved by every sequence of token-touching
operations; and once a new token is issued, any previously stored token
of that kind for that user no longer verifies. -/
theorem tokenIssuance_spec (now : Nat) (tok : String) (db : DB) (email : String)
    (uid : Nat) (hf : String → String) :
    (∀ u, getUserByEmail db email = some u →
      (∀ r ∈ db.passwordResets, r.token ≠ tok) →
      (createPasswordResetToken now tok db email).1 =
        .ok (some (u, { token := tok, userId := u.id, expiresAt := now + 5 * 60 }))
      ∧ (createPasswordResetToken now tok db email).2.passwordResets =
          db.passwordResets.filter (fun r => !(r.userId == u.id))
            ++ [{ token := tok, userId := u.id, expiresAt := now + 5 * 60 }]
      ∧ ((createPasswordResetToken now tok db email).2.passwordResets.filter
          (fun r => r.userId == u.id)).length = 1)
    ∧ (∀ u, getUserById db uid = some u →
      (∀ r ∈ db.emailConfirmations, r.token ≠ tok) →
      (createEmailConfirmationToken now tok db uid).1 =
        .ok (some (u, { token := tok, userId := u.id, expiresAt := now + 24 * 60 * 60 }))
      ∧ (createEmailConfirmationToken now tok db uid).2.emailConfirmations =
          db.emailConfirmations.filter (fun r => !(r.userId == u.id))
            ++ [{ token := tok, userId := u.id, expiresAt := now + 24 * 60 * 60 }]
      ∧ ((createEmailConfirmationToken now tok db uid).2.emailConfirmations.filter
          (fun r => r.userId == u.id)).length = 1)
    ∧ (∀ ops : List TokenOp, tokenInvariant db →
        tokenInvariant (ops.foldl (applyTokenOp hf) db))
    ∧ (∀ u rold, getUserByEmail db email = some u →
        (db.passwordResets.map (fun r => r.token)).Nodup →
        rold ∈ db.passwordResets → rold.userId = u.id → rold.token ≠ tok →
        ∀ now2, (verifyPasswordResetToken now2
          (createPasswordResetToken now tok db email).2 rold.token).1 = none)
    ∧ (∀ u rold, getUserById db uid = some u →
        (db.emailConfirmations.map (fun r => r.token)).Nodup →
        rold ∈ db.emailConfirmations → rold.userId = u.id → rold.token ≠ tok →
        ∀ now2, (verifyEmailConfirmationToken now2
          (createEmailConfirmationToken now tok db uid).2 rold.token).1 = none) := by
  refine ⟨?_, ?_, fun ops h => tokenInvariant_foldl hf db ops h, ?_, ?_⟩
  · intro u hu hfresh
    rw [createReset_ok now tok db email u hu hfresh]
    refine ⟨rfl, rfl, ?_⟩
    rw [List.filter_append, filter_userId_of_filter_not]
    simp
  · intro u hu hfresh
    rw [createConfirm_ok now tok db uid u hu hfresh]
    refine ⟨rfl, rfl, ?_⟩
    rw [List.filter_append, filter_userId_of_filter_not]
    simp
  · intro u rold hu hnodup hrmem hruid hrtok now2
    have hgone : (createPasswordResetToken now tok db email).2.passwordResets.find?
        (fun r => r.token == rold.token) = none := by
      rw [List.find?_eq_none]
      intro x hx
      rcases createReset_members now tok db email u hu x hx with ⟨hxm, hxuid⟩ | hxtok
      · intro hbeq
        have hxeq : x = rold :=
          List.inj_on_of_nodup_map hnodup hxm hrmem (by simpa using hbeq)
        exact hxuid (hxeq ▸ (hxeq ▸ hruid))
      · intro hbeq
        have hx2 : x.token = rold.token := by simpa using hbeq
        exact hrtok (hx2 ▸ hxtok)
    unfold verifyPasswordResetToken
    rw [hgone]
  · intro u rold hu hnodup hrmem hruid hrtok now2
    have hgone : (createEmailConfirmationToken now tok db uid).2.emailConfirmations.find?
        (fun r => r.token == rold.token) = none := by
      rw [List.find?_eq_none]
      intro x hx
      rcases createConfirm_members now tok db uid u hu x hx with ⟨hxm, hxuid⟩ | hxtok
      · intro hbeq
        have hxeq : x = rold :=
          List.inj_on_of_nodup_map hnodup hxm hrmem (by simpa using hbeq)
        exact hxuid (hxeq ▸ (hxeq ▸ hruid))
      · intro hbeq
        have hx2 : x.token = rold.token := by simpa using hbeq
        exact hrtok (hx2 ▸ hxtok)
    unfold verifyEmailConfirmationToken
    rw [hgone]

/-- Witness for C2: on a concrete store, creating a reset token for a
user holding an old reset token leaves exactly one reset token for that
user, the old token no longer verifies, and a concrete operation
sequence preserves the invariant. -/
theorem tokenIssuance_spec_witness :
    ((createPasswordResetToken 100 "new"
      { users := [{ id := 1, email := "a@x", isVerified := true }],
        passwords := [], passwordResets := [{ token := "old", userId := 1, expiresAt := 50 }],
        emailConfirmations := [], coffees := [] } "a@x").2.passwordResets.filter
        (fun r => r.userId == 1)).length = 1
    ∧ (∀ now2, (verifyPasswordResetToken now2
        (createPasswordResetToken 100 "new"
          { users := [{ id := 1, email := "a@x", isVerified := true }],
            passwords := [], passwordResets := [{ token := "old", userId := 1, expiresAt := 50 }],
            emailConfirmations := [], coffees := [] } "a@x").2 "old").1 = none)
    ∧ tokenInvariant
        ([TokenOp.createReset 0 "t1" "a@x", TokenOp.createConfirm 0 "c1" 1,
          TokenOp.verifyReset 400 "t1"].foldl (applyTokenOp (fun s => s))
          { users := [{ id := 1, email := "a@x", isVerified := true }],
            passwords := [], passwordResets := [], emailConfirmations := [],
            coffees := [] }) := by
  have h := tokenIssuance_spec 100 "new"
    { users := [{ id := 1, email := "a@x", isVerified := true }],
      passwords := [], passwordResets := [{ token := "old", userId := 1, expiresAt := 50 }],
      emailConfirmations := [], coffees := [] } "a@x" 1 (fun s => s)
  refine ⟨(h.1 { id := 1, email := "a@x", isVerified := true } (by decide) (by decide)).2.2,
    ?_, ?_⟩
  · have hd := h.2.2.2.1 { id := 1, email := "a@x", isVerified := true }
      { token := "old", userId := 1, expiresAt := 50 }
      (by decide) (by decide) (by decide) rfl (by decide)
    exact hd
  · have hi := (tokenIssuance_spec 0 "x"
      { users := [{ id := 1, email := "a@x", isVerified := true }],
        passwords := [], passwordResets := [], emailConfirmations := [],
        coffees := [] } "a@x" 1 (fun s => s)).2.2.1
      [TokenOp.createReset 0 "t1" "a@x", TokenOp.createConfirm 0 "c1" 1,
        TokenOp.verifyReset 400 "t1"]
      ⟨fun u2 => by simp [atMostOnePerUser], fun u2 => by simp [atMostOnePerUser]⟩
    exact hi

theorem groupsSpec_step (processed : List CoffeeRec) (acc : List AggregatedCoffee)
    (c : CoffeeRec) (h : groupsSpec processed acc) :
    groupsSpec (processed ++ [c]) (addCoffeeToGroups acc c) := by
  obtain ⟨hnd, hmem, hcov, hsub⟩ := h
  have hfa : ∀ key : String, (statsKey c == key) = true →
      (processed ++ [c]).filter (fun x => statsKey x == key) =
        processed.filter (fun x => statsKey x == key) ++ [c] := by
    intro key hk
    rw [List.filter_append]
    simp [List.filter_cons, hk]
  have hfb : ∀ key : String, (statsKey c == key) = false →
      (processed ++ [c]).filter (fun x => statsKey x == key) =
        processed.filter (fun x => statsKey x == key) := by
    intro key hk
    rw [List.filter_append]
    simp [List.filter_cons, hk]
  unfold addCoffeeToGroups
  by_cases hany : acc.any (fun g => aggKey g == statsKey c) = true
  · rw [if_pos hany]
    have hupd : ∀ g ∈ acc, aggKey
        (if aggKey g == statsKey c then
          { g with count := g.count + 1, rating := g.rating + (c.rating : Rat),
                   avgRating := (g.rating + (c.rating : Rat)) / ((g.count : Rat) + 1) }
        else g) = aggKey g := by
      intro g _
      by_cases hk : (aggKey g == statsKey c) = true
      · rw [if_pos hk]
        rfl
      · rw [if_neg hk]
    have hkeys : (acc.map (fun g =>
        if aggKey g == statsKey c then
          { g with count := g.count + 1, rating := g.rating + (c.rating : Rat),
                   avgRating := (g.rating + (c.rating : Rat)) / ((g.count : Rat) + 1) }
        else g)).map aggKey = acc.map aggKey := by
      rw [List.map_map]
      exact List.map_congr_left hupd
    refine ⟨?_, ?_, ?_, ?_⟩
    · rw [hkeys]
      exact hnd
    · intro g2 hg2
      rcases List.mem_map.1 hg2 with ⟨g, hg, rfl⟩
      obtain ⟨hcnt, hrat, havg⟩ := hmem g hg
      by_cases hk : (aggKey g == statsKey c) = true
      · have hk2 : (statsKey c == aggKey g) = true := by
          rw [beq_iff_eq] at hk ⊢
          exact hk.symm
        simp only [if_pos hk]
        refine ⟨?_, ?_, ?_⟩
        · show g.count + 1 =
            ((processed ++ [c]).filter (fun x => statsKey x == aggKey g)).length
          rw [hfa _ hk2, List.length_append, ← hcnt]
          rfl
        · show g.rating + (c.rating : Rat) =
            (((processed ++ [c]).filter (fun x => statsKey x == aggKey g)).map
              (fun x => (x.rating : Rat))).sum
          rw [hfa _ hk2, List.map_append, List.sum_append, ← hrat]
          simp
        · show (g.rating + (c.rating : Rat)) / ((g.count : Rat) + 1) =
            (g.rating + (c.rating : Rat)) / ((g.count + 1 : Nat) : Rat)
          norm_cast
      · have hne : aggKey g ≠ statsKey c := by simpa using hk
        have hk2 : (statsKey c == aggKey g) = false :=
          beq_eq_false_iff_ne.2 (fun h2 => hne h2.symm)
        simp only [if_neg hk]
        exact ⟨by rw [hfb _ hk2]; exact hcnt, by rw [hfb _ hk2]; exact hrat, havg⟩
    · intro c2 hc2
      rw [hkeys]
      rcases List.mem_append.1 hc2 with hcp | hcc
      · exact hcov c2 hcp
      · have he : c2 = c := List.mem_singleton.1 hcc
        subst he
        rcases List.any_eq_true.1 hany with ⟨g, hg, hgk⟩
        exact List.mem_map.2 ⟨g, hg, beq_iff_eq.1 hgk⟩
    · intro g2 hg2
      rcases List.mem_map.1 hg2 with ⟨g, hg, rfl⟩
      rw [hupd g hg, List.map_append]
      exact List.mem_append_left _ (hsub g hg)
  · rw [if_neg hany]
    have hkabs : statsKey c ∉ acc.map aggKey := by
      intro hin
      rcases List.mem_map.1 hin with ⟨g, hg, hkey⟩
      exact hany (List.any_eq_true.2 ⟨g, hg, beq_iff_eq.2 hkey⟩)
    have hfp : processed.filter (fun x => statsKey x == statsKey c) = [] := by
      rw [List.filter_eq_nil_iff]
      intro x hx hbeq
      rw [beq_iff_eq] at hbeq
      exact hkabs (hbeq ▸ hcov x hx)
    refine ⟨?_, ?_, ?_, ?_⟩
    · rw [List.map_append, List.nodup_append]
      refine ⟨hnd, by simp, ?_⟩
      intro a ha ha2
      simp only [List.map_cons, List.map_nil, List.mem_singleton] at ha2
      have hk3 : a = statsKey c := by simpa [aggKey, statsKey] using ha2
      rw [hk3] at ha
      exact hkabs ha
    · intro g2 hg2
      rcases List.mem_append.1 hg2 with hga | hgn
      · obtain ⟨hcnt, hrat, havg⟩ := hmem g2 hga
        have hne : statsKey c ≠ aggKey g2 := by
          intro h2
          exact hkabs (h2 ▸ List.mem_map_of_mem aggKey hga)
        have hk2 : (statsKey c == aggKey g2) = false := beq_eq_false_iff_ne.2 hne
        exact ⟨by rw [hfb _ hk2]; exact hcnt, by rw [hfb _ hk2]; exact hrat, havg⟩
      · have he : g2 = { name := c.name, brand := c.brand, count := 1,
                         rating := (c.rating : Rat),
                         avgRating := (c.rating : Rat) / 1 } :=
          List.mem_singleton.1 hgn
        subst he
        refine ⟨?_, ?_, ?_⟩
        · show 1 = ((processed ++ [c]).filter (fun x => statsKey x == statsKey c)).length
          rw [List.filter_append, hfp]
          simp [List.filter_cons]
        · show (c.rating : Rat) =
            (((processed ++ [c]).filter (fun x => statsKey x == statsKey c)).map
              (fun x => (x.rating : Rat))).sum
          rw [List.filter_append, hfp]
          simp [List.filter_cons]
        · show (c.rating : Rat) / 1 = (c.rating : Rat) / ((1 : Nat) : Rat)
          norm_num
    · intro c2 hc2
      rw [List.map_append]
      rcases List.mem_append.1 hc2 with hcp | hcc
      · exact List.mem_append_left _ (hcov c2 hcp)
      · have he : c2 = c := List.mem_singleton.1 hcc
        subst he
        apply List.mem_append_right
        simp [aggKey, statsKey]
    · intro g2 hg2
      rw [List.map_append]
      rcases List.mem_append.1 hg2 with hga | hgn
      · exact List.mem_append_left _ (hsub g2 hga)
      · have he : g2 = { name := c.name, brand := c.brand, count := 1,
                         rating := (c.rating : Rat),
                         avgRating := (c.rating : Rat) / 1 } :=
          List.mem_singleton.1 hgn
        subst he
        apply List.mem_append_right
        simp [aggKey, statsKey]

theorem groupsSpec_foldl (cs : List CoffeeRec) :
    ∀ (processed : List CoffeeRec) (acc : List AggregatedCoffee),
      groupsSpec processed acc →
      groupsSpec (processed ++ cs) (cs.foldl addCoffeeToGroups acc) := by
  induction cs with
  | nil =>
    intro processed acc h
    simpa using h
  | cons c cs ih =>
    intro processed acc h
    have h2 := ih (processed ++ [c]) (addCoffeeToGroups acc c) (groupsSpec_step _ _ _ h)
    rw [List.append_assoc] at h2
    simpa using h2

theorem groupsSpec_nil : groupsSpec [] [] := by
  refine ⟨by simp, by simp, by simp, by simp⟩

theorem groupCoffeesByKey_spec (cs : List CoffeeRec) :
    groupsSpec cs (groupCoffeesByKey cs) := by
  have h := groupsSpec_foldl cs [] [] groupsSpec_nil
  simpa [groupCoffeesByKey] using h

/-- C4: for every user and page/perPage at least 1, the pagination
block reports the user's total entry count, a page count equal to
`ceil(totalItems / perPage)` (characterised order-theoretically), the
requested page, and the `page`-th block (of size at most `perPage`) of
the entries sorted newest first; on the last page the item count is
`totalItems - (totalPages - 1) * perPage`; within range, `hasNextPage`
is false exactly on the last page, and `hasPrevPage` is false exactly on
page 1. -/
theorem pagination_spec (db : DB) (userId page perPage : Nat)
    (hp : 1 ≤ page) (hpp : 1 ≤ perPage) :
    (getCoffeeListItemsPaginated db userId page perPage).pagination.totalItems =
      (db.coffees.filter (fun c => c.userId == userId)).length
    ∧ (db.coffees.filter (fun c => c.userId == userId)).length ≤
        (getCoffeeListItemsPaginated db userId page perPage).pagination.totalPages * perPage
    ∧ (getCoffeeListItemsPaginated db userId page perPage).pagination.totalPages * perPage <
        (db.coffees.filter (fun c => c.userId == userId)).length + perPage
    ∧ (getCoffeeListItemsPaginated db userId page perPage).pagination.currentPage = page
    ∧ (getCoffeeListItemsPaginated db userId page perPage).pagination.perPage = perPage
    ∧ (getCoffeeListItemsPaginated db userId page perPage).items =
        ((userCoffeesDesc db userId).drop ((page - 1) * perPage)).take perPage
    ∧ List.Sorted createdDesc (userCoffeesDesc db userId)
    ∧ List.Perm (userCoffeesDesc db userId)
        (db.coffees.filter (fun c => c.userId == userId))
    ∧ (getCoffeeListItemsPaginated db userId page perPage).items.length ≤ perPage
    ∧ (1 ≤ (db.coffees.filter (fun c => c.userId == userId)).length →
        page = (getCoffeeListItemsPaginated db userId page perPage).pagination.totalPages →
        (getCoffeeListItemsPaginated db userId page perPage).items.length =
          (db.coffees.filter (fun c => c.userId == userId)).length -
            ((getCoffeeListItemsPaginated db userId page perPage).pagination.totalPages - 1)
              * perPage)
    ∧ (page ≤ (getCoffeeListItemsPaginated db userId page perPage).pagination.totalPages →
        ((getCoffeeListItemsPaginated db userId page perPage).pagination.hasNextPage = false ↔
          page = (getCoffeeListItemsPaginated db userId page perPage).pagination.totalPages))
    ∧ ((getCoffeeListItemsPaginated db userId page perPage).pagination.hasPrevPage = false ↔
        page = 1) := by
  have hpp0 : 0 < perPage := hpp
  have hTotal : (getCoffeeListItemsPaginated db userId page perPage).pagination.totalItems =
      (db.coffees.filter (fun c => c.userId == userId)).length := rfl
  have hTP : (getCoffeeListItemsPaginated db userId page perPage).pagination.totalPages =
      ceilDiv (db.coffees.filter (fun c => c.userId == userId)).length perPage := rfl
  have hCur : (getCoffeeListItemsPaginated db userId page perPage).pagination.currentPage =
      page := rfl
  have hPP : (getCoffeeListItemsPaginated db userId page perPage).pagination.perPage =
      perPage := rfl
  have hItems : (getCoffeeListItemsPaginated db userId page perPage).items =
      ((userCoffeesDesc db userId).drop ((page - 1) * perPage)).take perPage := rfl
  have hNext : (getCoffeeListItemsPaginated db userId page perPage).pagination.hasNextPage =
      decide (page < ceilDiv (db.coffees.filter (fun c => c.userId == userId)).length perPage) :=
    rfl
  have hPrev : (getCoffeeListItemsPaginated db userId page perPage).pagination.hasPrevPage =
      decide (1 < page) := rfl
  set N := (db.coffees.filter (fun c => c.userId == userId)).length with hNdef
  set tp := ceilDiv N perPage with htpdef
  have hB : tp * perPage ≤ N + perPage - 1 := by
    rw [htpdef]
    unfold ceilDiv
    exact Nat.div_mul_le_self _ _
  have hA : N + perPage - 1 < (tp + 1) * perPage := by
    rw [htpdef]
    unfold ceilDiv
    exact (Nat.div_lt_iff_lt_mul hpp0).1 (Nat.lt_succ_self _)
  have hA2 : N + perPage - 1 < tp * perPage + perPage := by
    rw [Nat.succ_mul] at hA
    exact hA
  have hNle : N ≤ tp * perPage := by omega
  have hlt : tp * perPage < N + perPage := by omega
  have hsorted : List.Sorted createdDesc (userCoffeesDesc db userId) :=
    List.sorted_insertionSort createdDesc _
  have hperm : List.Perm (userCoffeesDesc db userId)
      (db.coffees.filter (fun c => c.userId == userId)) :=
    List.perm_insertionSort createdDesc _
  have hslen : (userCoffeesDesc db userId).length = N := hperm.length_eq
  have hlen : (getCoffeeListItemsPaginated db userId page perPage).items.length =
      min perPage (N - (page - 1) * perPage) := by
    rw [hItems, List.length_take, List.length_drop, hslen]
  refine ⟨hTotal, ?_, ?_, hCur, hPP, hItems, hsorted, hperm, ?_, ?_, ?_, ?_⟩
  · rw [hTP]
    exact hNle
  · rw [hTP]
    exact hlt
  · rw [hlen]
    exact Nat.min_le_left _ _
  · intro hN1 hpage
    rw [hTP] at hpage
    rw [hlen, hTP, ← hpage]
    have htpnz : tp ≠ 0 := by
      intro h0
      rw [h0, Nat.zero_mul] at hNle
      omega
    obtain ⟨tp2, htp2⟩ := Nat.exists_eq_succ_of_ne_zero htpnz
    have hpage2 : page = tp2 + 1 := by rw [hpage, htp2]
    have hNle2 : N ≤ tp2 * perPage + perPage := by
      rw [htp2, Nat.succ_mul] at hNle
      exact hNle
    rw [hpage2]
    simp only [Nat.add_sub_cancel]
    omega
  · intro hple
    rw [hTP] at hple
    rw [hNext, hTP, decide_eq_false_iff_not]
    omega
  · rw [hPrev, decide_eq_false_iff_not]
    omega

/-- Witness for C4: the spec's own scenario — 25 entries, page 3 with
`perPage` 10 — yields 5 items on the last page and `hasPrevPage = true`.
-/
theorem pagination_spec_witness :
    (getCoffeeListItemsPaginated samplePaginationDB 1 3 10).items.length =
      (samplePaginationDB.coffees.filter (fun c => c.userId == 1)).length -
        ((getCoffeeListItemsPaginated samplePaginationDB 1 3 10).pagination.totalPages - 1)
          * 10
    ∧ ((getCoffeeListItemsPaginated samplePaginationDB 1 3 10).pagination.hasPrevPage =
        false ↔ (3 : Nat) = 1) :=
  ⟨(pagination_spec samplePaginationDB 1 3 10 (by decide) (by decide)).2.2.2.2.2.2.2.2.2.1
      (by decide) (by decide),
   (pagination_spec samplePaginationDB 1 3 10 (by decide) (by decide)).2.2.2.2.2.2.2.2.2.2.2⟩

theorem groups_length_eq_dedup (cs : List CoffeeRec) :
    (groupCoffeesByKey cs).length = ((cs.map statsKey).dedup).length := by
  obtain ⟨hnd, _, hcov, hsub⟩ := groupCoffeesByKey_spec cs
  have hperm : ((groupCoffeesByKey cs).map aggKey).Perm ((cs.map statsKey).dedup) := by
    rw [List.perm_ext_iff_of_nodup hnd (List.nodup_dedup _)]
    intro a
    constructor
    · intro ha
      rcases List.mem_map.1 ha with ⟨g, hg, rfl⟩
      exact List.mem_dedup.2 (hsub g hg)
    · intro ha
      rcases List.mem_map.1 (List.mem_dedup.1 ha) with ⟨c, hc, rfl⟩
      exact hcov c hc
  have hlen := hperm.length_eq
  rw [List.length_map] at hlen
  exact hlen

/-- C7 (amended): `calculateMostConsumedCoffees` groups entries by the
string key `name ++ "|" ++ brand` (which coincides with the `(name,
brand)` pair whenever no collision of the concatenation occurs); each
returned group's count is the number of entries with its key and its
`avgRating` is the sum of those entries' ratings divided by the count;
the result is sorted by count descending with ties by average rating
descending, has `min 5 (number of distinct keys)` elements, consists of
groups of the key-grouping each of which dominates (count descending,
ties by average rating descending) every group left out — so it is the
top five of the sort, not an arbitrary sorted selection — and
recomputation over the same list yields the identical result. -/
theorem mostConsumed_spec (cs : List CoffeeRec) :
    List.Sorted consumedLE (calculateMostConsumedCoffees cs)
    ∧ (calculateMostConsumedCoffees cs).length = min 5 ((cs.map statsKey).dedup.length)
    ∧ (∀ g ∈ calculateMostConsumedCoffees cs,
        g.count = (cs.filter (fun c => statsKey c == aggKey g)).length
        ∧ g.rating = ((cs.filter (fun c => statsKey c == aggKey g)).map
            (fun c => (c.rating : Rat))).sum
        ∧ g.avgRating = g.rating / (g.count : Rat)
        ∧ aggKey g ∈ cs.map statsKey)
    ∧ (∀ g ∈ calculateMostConsumedCoffees cs, g ∈ groupCoffeesByKey cs)
    ∧ (∀ g ∈ calculateMostConsumedCoffees cs, ∀ g2 ∈ groupCoffeesByKey cs,
        g2 ∉ calculateMostConsumedCoffees cs → consumedLE g g2)
    ∧ calculateMostConsumedCoffees cs = calculateMostConsumedCoffees cs := by
  obtain ⟨hnd, hmem, hcov, hsub⟩ := groupCoffeesByKey_spec cs
  have hresmem : ∀ g ∈ calculateMostConsumedCoffees cs, g ∈ groupCoffeesByKey cs := by
    intro g hg
    have hmem2 : g ∈ (groupCoffeesByKey cs).insertionSort consumedLE :=
      (List.take_sublist _ _).subset hg
    exact (List.perm_insertionSort consumedLE (groupCoffeesByKey cs)).mem_iff.1 hmem2
  refine ⟨?_, ?_, ?_, hresmem, ?_, rfl⟩
  · exact List.Pairwise.sublist (List.take_sublist _ _)
      (List.sorted_insertionSort consumedLE (groupCoffeesByKey cs))
  · unfold calculateMostConsumedCoffees
    rw [List.length_take,
      (List.perm_insertionSort consumedLE (groupCoffeesByKey cs)).length_eq,
      groups_length_eq_dedup]
  · intro g hg
    have hg2 := hresmem g hg
    exact ⟨(hmem g hg2).1, (hmem g hg2).2.1, (hmem g hg2).2.2, hsub g hg2⟩
  · intro g hg g2 hg2 hg2n
    have hg2S : g2 ∈ (groupCoffeesByKey cs).insertionSort consumedLE :=
      (List.perm_insertionSort consumedLE (groupCoffeesByKey cs)).mem_iff.2 hg2
    have hp : List.Pairwise consumedLE
        ((groupCoffeesByKey cs).insertionSort consumedLE) :=
      List.sorted_insertionSort consumedLE (groupCoffeesByKey cs)
    have hp2 : List.Pairwise consumedLE
        (((groupCoffeesByKey cs).insertionSort consumedLE).take 5 ++
          ((groupCoffeesByKey cs).insertionSort consumedLE).drop 5) := by
      rw [List.take_append_drop]
      exact hp
    have hg2td : g2 ∈ ((groupCoffeesByKey cs).insertionSort consumedLE).take 5 ++
        ((groupCoffeesByKey cs).insertionSort consumedLE).drop 5 := by
      rw [List.take_append_drop]
      exact hg2S
    rcases List.mem_append.1 hg2td with h | h
    · exact absurd h hg2n
    · exact (List.pairwise_append.1 hp2).2.2 g hg g2 h

/-- C7 counterexample: the distinct pairs `("a|b", "c")` and
`("a", "b|c")` concatenate to the same key, so the code produces a
single group where grouping by the `(name, brand)` pair would produce
two. -/
theorem mostConsumed_pairGrouping_counterexample :
    (calculateMostConsumedCoffees
      [{ id := 1, userId := 1, name := "a|b", brand := "c", preparation := "p",
         shots := 1, flavor := "f", rating := 1, description := "d", createdAt := 0 },
       { id := 2, userId := 1, name := "a", brand := "b|c", preparation := "p",
         shots := 1, flavor := "f", rating := 5, description := "d",
         createdAt := 0 }]).length = 1
    ∧ distinctNameBrandPairs
      [{ id := 1, userId := 1, name := "a|b", brand := "c", preparation := "p",
         shots := 1, flavor := "f", rating := 1, description := "d", createdAt := 0 },
       { id := 2, userId := 1, name := "a", brand := "b|c", preparation := "p",
         shots := 1, flavor := "f", rating := 5, description := "d",
         createdAt := 0 }] = 2 := by
  constructor
  · rfl
  · decide

theorem find?_congr_mem {α : Type} {p q : α → Bool} (l : List α)
    (h : ∀ a ∈ l, p a = q a) : l.find? p = l.find? q := by
  induction l with
  | nil => rfl
  | cons a l ih =>
    have ha := h a (List.mem_cons_self a l)
    by_cases hp : p a = true
    · rw [List.find?_cons_of_pos _ hp, List.find?_cons_of_pos _ (ha ▸ hp)]
    · rw [List.find?_cons_of_neg _ hp, List.find?_cons_of_neg _ (by rw [← ha]; exact hp)]
      exact ih (fun a2 ha2 => h a2 (List.mem_cons_of_mem _ ha2))

theorem find?_filter_of_imp {α : Type} (l : List α) (p q : α → Bool)
    (h : ∀ a, p a = true → q a = true) : (l.filter q).find? p = l.find? p := by
  induction l with
  | nil => rfl
  | cons a l ih =>
    by_cases hq : q a = true
    · rw [List.filter_cons_of_pos hq]
      by_cases hp : p a = true
      · rw [List.find?_cons_of_pos _ hp, List.find?_cons_of_pos _ hp]
      · rw [List.find?_cons_of_neg _ hp, List.find?_cons_of_neg _ hp]
        exact ih
    · rw [List.filter_cons_of_neg hq]
      have hp : ¬ p a = true := fun hpa => hq (h a hpa)
      rw [List.find?_cons_of_neg _ hp]
      exact ih

theorem exists_max_entry : ∀ (a : String × Nat) (l : List (String × Nat)),
    ∃ x ∈ a :: l, ∀ z ∈ a :: l, z.2 ≤ x.2 := by
  intro a l
  induction l generalizing a with
  | nil =>
    refine ⟨a, List.mem_cons_self _ _, ?_⟩
    intro z hz
    rcases List.mem_cons.1 hz with rfl | h
    · exact le_refl _
    · cases h
  | cons b l ih =>
    obtain ⟨x, hx, hmax⟩ := ih b
    by_cases hab : a.2 ≤ x.2
    · refine ⟨x, List.mem_cons_of_mem _ hx, ?_⟩
      intro z hz
      rcases List.mem_cons.1 hz with rfl | h
      · exact hab
      · exact hmax z h
    · refine ⟨a, List.mem_cons_self _ _, ?_⟩
      intro z hz
      rcases List.mem_cons.1 hz with rfl | h
      · exact le_refl _
      · exact le_trans (hmax z h) (le_of_lt (not_le.1 hab))

theorem scanStep_foldl (l : List (String × Nat)) :
    ∀ b : Option String × Nat,
    l.foldl (fun best e => if best.2 < e.2 then (some e.1, e.2) else best) b =
      match l.find? (fun e => decide (b.2 < e.2) && decide (∀ x ∈ l, x.2 ≤ e.2)) with
      | some e0 => (some e0.1, e0.2)
      | none => b := by
  induction l with
  | nil => intro b; rfl
  | cons e l ih =>
    intro b
    rw [List.foldl_cons]
    by_cases h1 : b.2 < e.2
    · by_cases h2 : ∀ x ∈ e :: l, x.2 ≤ e.2
      · have hpe : (fun x : String × Nat => decide (b.2 < x.2) &&
            decide (∀ y ∈ e :: l, y.2 ≤ x.2)) e = true := by
          simp only [Bool.and_eq_true, decide_eq_true_eq]
          exact ⟨h1, h2⟩
        rw [@List.find?_cons_of_pos _
          (fun x : String × Nat => decide (b.2 < x.2) && decide (∀ y ∈ e :: l, y.2 ≤ x.2))
          e l hpe]
        simp only [if_pos h1]
        rw [ih (some e.1, e.2)]
        have hnone : l.find? (fun x => decide ((some e.1, e.2).2 < x.2) &&
            decide (∀ y ∈ l, y.2 ≤ x.2)) = none := by
          rw [List.find?_eq_none]
          intro x hx hcontra
          simp only [Bool.and_eq_true, decide_eq_true_eq] at hcontra
          exact absurd hcontra.1 (not_lt.2 (h2 x (List.mem_cons_of_mem _ hx)))
        rw [hnone]
      · have hall : ¬ ∀ z ∈ e :: l, z.2 ≤ e.2 := h2
        push_neg at h2
        obtain ⟨y, hy, hylt⟩ := h2
        have hyl : y ∈ l := by
          rcases List.mem_cons.1 hy with rfl | h
          · exact absurd hylt (lt_irrefl _)
          · exact h
        have hpe : ¬ (fun x : String × Nat => decide (b.2 < x.2) &&
            decide (∀ z ∈ e :: l, z.2 ≤ x.2)) e = true := by
          simp only [Bool.and_eq_true, decide_eq_true_eq, not_and]
          intro _
          exact hall
        rw [@List.find?_cons_of_neg _
          (fun x : String × Nat => decide (b.2 < x.2) && decide (∀ z ∈ e :: l, z.2 ≤ x.2))
          e l hpe]
        simp only [if_pos h1]
        rw [ih (some e.1, e.2)]
        have hcongr : l.find? (fun x => decide ((some e.1, e.2).2 < x.2) &&
            decide (∀ y2 ∈ l, y2.2 ≤ x.2)) =
            l.find? (fun x => decide (b.2 < x.2) && decide (∀ z ∈ e :: l, z.2 ≤ x.2)) := by
          apply find?_congr_mem
          intro x hx
          by_cases hmax : ∀ y2 ∈ l, y2.2 ≤ x.2
          · have hex : e.2 < x.2 := lt_of_lt_of_le hylt (hmax y hyl)
            have hz : ∀ z ∈ e :: l, z.2 ≤ x.2 := by
              intro z hz2
              rcases List.mem_cons.1 hz2 with rfl | h
              · exact le_of_lt hex
              · exact hmax z h
            have ha : (decide ((some e.1, e.2).2 < x.2) &&
                decide (∀ y2 ∈ l, y2.2 ≤ x.2)) = true := by
              simp only [Bool.and_eq_true, decide_eq_true_eq]
              exact ⟨hex, hmax⟩
            have hb2 : (decide (b.2 < x.2) && decide (∀ z ∈ e :: l, z.2 ≤ x.2)) = true := by
              simp only [Bool.and_eq_true, decide_eq_true_eq]
              exact ⟨lt_trans h1 hex, hz⟩
            rw [ha, hb2]
          · have hz : ¬ ∀ z ∈ e :: l, z.2 ≤ x.2 :=
              fun hall2 => hmax (fun y2 hy2 => hall2 y2 (List.mem_cons_of_mem _ hy2))
            rw [decide_eq_false hmax, decide_eq_false hz]
            simp
        rw [← hcongr]
        cases hfind : l.find? (fun x => decide ((some e.1, e.2).2 < x.2) &&
            decide (∀ y2 ∈ l, y2.2 ≤ x.2)) with
        | some e0 => rfl
        | none =>
          exfalso
          cases l with
          | nil => cases hyl
          | cons a l2 =>
            obtain ⟨x, hx, hmax⟩ := exists_max_entry a l2
            have hnx := List.find?_eq_none.1 hfind x hx
            apply hnx
            have hex : e.2 < x.2 := lt_of_lt_of_le hylt (hmax y hyl)
            simp only [Bool.and_eq_true, decide_eq_true_eq]
            exact ⟨hex, hmax⟩
    · simp only [if_neg h1]
      have hpe : ¬ (fun x : String × Nat => decide (b.2 < x.2) &&
          decide (∀ z ∈ e :: l, z.2 ≤ x.2)) e = true := by
        simp only [Bool.and_eq_true, decide_eq_true_eq, not_and]
        intro hb
        exact absurd hb h1
      rw [@List.find?_cons_of_neg _
        (fun x : String × Nat => decide (b.2 < x.2) && decide (∀ z ∈ e :: l, z.2 ≤ x.2))
        e l hpe]
      rw [ih b]
      have hcongr : l.find? (fun x => decide (b.2 < x.2) && decide (∀ y ∈ l, y.2 ≤ x.2)) =
          l.find? (fun x => decide (b.2 < x.2) && decide (∀ z ∈ e :: l, z.2 ≤ x.2)) := by
        apply find?_congr_mem
        intro x hx
        by_cases hbx : b.2 < x.2
        · by_cases hmax : ∀ y ∈ l, y.2 ≤ x.2
          · have hz : ∀ z ∈ e :: l, z.2 ≤ x.2 := by
              intro z hz2
              rcases List.mem_cons.1 hz2 with rfl | h
              · exact le_trans (not_lt.1 h1) (le_of_lt hbx)
              · exact hmax z h
            have ha : (decide (b.2 < x.2) && decide (∀ y ∈ l, y.2 ≤ x.2)) = true := by
              simp only [Bool.and_eq_true, decide_eq_true_eq]
              exact ⟨hbx, hmax⟩
            have hb2 : (decide (b.2 < x.2) && decide (∀ z ∈ e :: l, z.2 ≤ x.2)) = true := by
              simp only [Bool.and_eq_true, decide_eq_true_eq]
              exact ⟨hbx, hz⟩
            rw [ha, hb2]
          · have hz : ¬ ∀ z ∈ e :: l, z.2 ≤ x.2 :=
              fun hall => hmax (fun y hy => hall y (List.mem_cons_of_mem _ hy))
            rw [decide_eq_false hmax, decide_eq_false hz]
        · rw [decide_eq_false hbx, Bool.false_and, Bool.false_and]
      rw [hcongr]

theorem find?_fst_eq_of_mem {α : Type} {l : List (String × α)} {e : String × α}
    (hnd : (l.map Prod.fst).Nodup) (he : e ∈ l) :
    l.find? (fun x => x.1 == e.1) = some e := by
  induction l with
  | nil => cases he
  | cons a l ih =>
    simp only [List.map_cons, List.nodup_cons] at hnd
    rcases List.mem_cons.1 he with rfl | hmem
    · exact List.find?_cons_of_pos _ (by simp)
    · have hne : ¬ ((fun x : String × α => x.1 == e.1) a) = true := by
        intro h
        have heq : a.1 = e.1 := by simpa using h
        apply hnd.1
        rw [heq]
        exact List.mem_map_of_mem Prod.fst hmem
      rw [@List.find?_cons_of_neg _ (fun x : String × α => x.1 == e.1) a l hne]
      exact ih hnd.2 hmem

theorem cleanPrep_ne_proto {p : String} (h : cleanPrep p = true) : ¬ p = "__proto__" := by
  intro he
  subst he
  exact absurd h (by decide)

theorem mem_numEntries {l : List (String × PropVal)} {x : String × Nat} :
    x ∈ numEntries l ↔ ∃ e ∈ l, e.1 = x.1 ∧ e.2 = .num x.2 := by
  unfold numEntries
  rw [List.mem_filterMap]
  constructor
  · rintro ⟨e, he, hfe⟩
    cases hv : e.2 with
    | num n =>
      rw [hv] at hfe
      simp only [Option.some.injEq] at hfe
      subst hfe
      exact ⟨e, he, rfl, hv⟩
    | strv =>
      rw [hv] at hfe
      simp at hfe
  · rintro ⟨e, he, h1, h2⟩
    refine ⟨e, he, ?_⟩
    rw [h2]
    simp [h1]

theorem mem_map_fst_of_mem_numEntries {l : List (String × PropVal)} {x : String × Nat}
    (h : x ∈ numEntries l) : x.1 ∈ l.map Prod.fst := by
  rcases mem_numEntries.1 h with ⟨e, he, h1, _⟩
  rw [← h1]
  exact List.mem_map_of_mem Prod.fst he

theorem numEntries_keys_map (acc : List (String × PropVal))
    (f : String × PropVal → String × PropVal)
    (hf : ∀ e ∈ acc, (f e).1 = e.1
      ∧ (∀ n, e.2 = .num n → ∃ m, (f e).2 = .num m)
      ∧ (e.2 = .strv → (f e).2 = .strv)) :
    (numEntries (acc.map f)).map Prod.fst = (numEntries acc).map Prod.fst := by
  induction acc with
  | nil => rfl
  | cons e rest ih =>
    have hfe := hf e (List.mem_cons_self _ _)
    have hrest := ih (fun e2 he2 => hf e2 (List.mem_cons_of_mem _ he2))
    rw [List.map_cons]
    unfold numEntries
    rw [List.filterMap_cons, List.filterMap_cons]
    cases hv : e.2 with
    | num n =>
      obtain ⟨m, hm⟩ := hfe.2.1 n hv
      simp only [hv, hm]
      simp only [List.map_cons, hfe.1]
      unfold numEntries at hrest
      rw [hrest]
    | strv =>
      have hs := hfe.2.2 hv
      simp only [hv, hs]
      unfold numEntries at hrest
      exact hrest

theorem dedupFirst_append_singleton (A : List String) (p : String) :
    dedupFirst (A ++ [p]) =
      if p ∈ dedupFirst A then dedupFirst A else dedupFirst A ++ [p] := by
  unfold dedupFirst
  rw [List.foldl_append]
  rfl

theorem foldl_dedup_eq (l : List String) : ∀ acc : List String,
    l.foldl (fun ks p => if p ∈ ks then ks else ks ++ [p]) acc
      = acc ++ dedupF (l.filter (fun p => !(decide (p ∈ acc)))) := by
  induction l with
  | nil => intro acc; simp [dedupF]
  | cons p l ih =>
    intro acc
    rw [List.foldl_cons]
    by_cases hp : p ∈ acc
    · rw [if_pos hp, ih acc]
      have hf : (p :: l).filter (fun q => !(decide (q ∈ acc))) =
          l.filter (fun q => !(decide (q ∈ acc))) := by
        rw [List.filter_cons]
        simp [hp]
      rw [hf]
    · rw [if_neg hp, ih (acc ++ [p])]
      have hfcons : (p :: l).filter (fun q => !(decide (q ∈ acc))) =
          p :: l.filter (fun q => !(decide (q ∈ acc))) := by
        rw [List.filter_cons]
        simp [hp]
      have hff : l.filter (fun q => !(decide (q ∈ acc ++ [p]))) =
          (l.filter (fun q => !(decide (q ∈ acc)))).filter (fun q => !(q == p)) := by
        rw [List.filter_filter]
        apply List.filter_congr
        intro q _
        by_cases hqa : q ∈ acc
        · simp [hqa, List.mem_append]
        · by_cases hqp : q = p
          · simp [hqp, hqa, List.mem_append]
          · simp [hqa, hqp, List.mem_append]
      rw [hfcons, hff]
      rw [show dedupF (p :: l.filter (fun q => !(decide (q ∈ acc)))) =
          p :: dedupF ((l.filter (fun q => !(decide (q ∈ acc)))).filter (fun q => !(q == p)))
          from by simp only [dedupF]]
      simp

theorem dedupFirst_eq_dedupF (l : List String) : dedupFirst l = dedupF l := by
  have h := foldl_dedup_eq l []
  simp only [List.nil_append] at h
  rw [dedupFirst, h]
  have hf : l.filter (fun p => !(decide (p ∈ ([] : List String)))) = l :=
    List.filter_eq_self.2 (by intro a _; simp)
  rw [hf]

theorem dedupF_find?_le : ∀ (n : Nat) (l : List String), l.length ≤ n →
    ∀ P : String → Bool, (dedupF l).find? P = l.find? P := by
  intro n
  induction n with
  | zero =>
    intro l hl P
    have he : l = [] := List.eq_nil_of_length_eq_zero (Nat.le_zero.1 hl)
    subst he
    simp only [dedupF]
  | succ n ih =>
    intro l hl P
    cases l with
    | nil => simp only [dedupF]
    | cons p l =>
      rw [show dedupF (p :: l) = p :: dedupF (l.filter (fun q => !(q == p)))
          from by simp only [dedupF]]
      by_cases hp : P p = true
      · rw [List.find?_cons_of_pos _ hp, List.find?_cons_of_pos _ hp]
      · rw [List.find?_cons_of_neg _ hp, List.find?_cons_of_neg _ hp]
        have hlen : (l.filter (fun q => !(q == p))).length ≤ n :=
          le_trans (List.length_filter_le _ _) (Nat.succ_le_succ_iff.1 hl)
        rw [ih _ hlen P]
        apply find?_filter_of_imp
        intro a ha
        by_cases hap : a = p
        · subst hap
          exact absurd ha hp
        · simp [hap]

theorem dedupF_find? (l : List String) (P : String → Bool) :
    (dedupF l).find? P = l.find? P :=
  dedupF_find?_le l.length l le_rfl P

theorem map_update_fst (acc : List (String × PropVal)) (key : String) (v : PropVal) :
    (acc.map (fun e => if e.1 == key then (e.1, v) else e)).map Prod.fst
      = acc.map Prod.fst := by
  rw [List.map_map]
  apply List.map_congr_left
  intro e _
  by_cases hk : (e.1 == key) = true
  · have hk' : e.1 = key := by simpa using hk
    simp [hk']
  · have hk' : ¬ e.1 = key := by simpa using hk
    simp [hk']

theorem map_update_mem {acc : List (String × PropVal)} {key : String} {v : PropVal}
    {e' : String × PropVal}
    (h : e' ∈ acc.map (fun e => if e.1 == key then (e.1, v) else e)) :
    (∃ e ∈ acc, e.1 = key ∧ e' = (key, v)) ∨ (e' ∈ acc ∧ ¬ e'.1 = key) := by
  rcases List.mem_map.1 h with ⟨e, he, hfe⟩
  by_cases hk : (e.1 == key) = true
  · left
    have hk' : e.1 = key := by simpa using hk
    refine ⟨e, he, hk', ?_⟩
    rw [← hfe]
    simp [hk, hk']
  · right
    have heq : e' = e := by
      rw [← hfe]
      simp [hk]
    subst heq
    exact ⟨he, by simpa using hk⟩

theorem prepCountsSpec_nil : prepCountsSpec [] [] := by
  unfold prepCountsSpec
  refine ⟨List.nodup_nil, ?_, ?_, rfl⟩
  · intro e he
    cases he
  · intro p hp _
    simp [prepList] at hp

theorem prepCountsSpec_step (processed : List CoffeeRec) (acc : List (String × PropVal))
    (h : prepCountsSpec processed acc) (c : CoffeeRec) :
    prepCountsSpec (processed ++ [c]) (addPrepCount acc c) := by
  obtain ⟨hnd, hmem, hcov, hkeys⟩ := h
  have hplist : prepList (processed ++ [c]) = prepList processed ++ [c.preparation] := by
    simp [prepList]
  have hcount_self : (prepList (processed ++ [c])).count c.preparation
      = (prepList processed).count c.preparation + 1 := by
    rw [hplist, List.count_append]
    simp
  have hcount_other : ∀ k : String, ¬ k = c.preparation →
      (prepList (processed ++ [c])).count k = (prepList processed).count k := by
    intro k hk
    rw [hplist, List.count_append]
    have h0 : ([c.preparation] : List String).count k = 0 := by
      rw [List.count_eq_zero]
      simpa using hk
    rw [h0]
    omega
  have hin_new : ∀ p : String, p ∈ prepList processed → p ∈ prepList (processed ++ [c]) := by
    intro p hp
    rw [hplist]
    exact List.mem_append_left _ hp
  have hc_in : c.preparation ∈ prepList (processed ++ [c]) := by
    rw [hplist]
    exact List.mem_append_right _ (List.mem_singleton.2 rfl)
  have hfilter_clean : cleanPrep c.preparation = true →
      (prepList (processed ++ [c])).filter cleanPrep
        = (prepList processed).filter cleanPrep ++ [c.preparation] := by
    intro hc
    rw [hplist, List.filter_append]
    simp [List.filter_cons, hc]
  have hfilter_unclean : cleanPrep c.preparation = false →
      (prepList (processed ++ [c])).filter cleanPrep
        = (prepList processed).filter cleanPrep := by
    intro hc
    rw [hplist, List.filter_append]
    simp [List.filter_cons, hc]
  unfold prepCountsSpec
  by_cases hP : (c.preparation == "__proto__") = true
  · -- assignment to "__proto__" hits the inherited setter: no own property
    have hPe : c.preparation = "__proto__" := by simpa using hP
    have hstep : addPrepCount acc c = acc := by
      unfold addPrepCount
      rw [if_pos hP]
    rw [hstep]
    refine ⟨hnd, ?_, ?_, ?_⟩
    · intro e he
      obtain ⟨hin, hnum, hstr⟩ := hmem e he
      refine ⟨hin_new _ hin, ?_, hstr⟩
      intro n hn
      obtain ⟨hc, hcnt⟩ := hnum n hn
      have hne : ¬ e.1 = c.preparation := fun heq => (cleanPrep_ne_proto hc) (heq.trans hPe)
      exact ⟨hc, by rw [hcount_other e.1 hne]; exact hcnt⟩
    · intro p2 hp2 hp2ne
      rw [hplist] at hp2
      rcases List.mem_append.1 hp2 with h2 | h2
      · exact hcov p2 h2 hp2ne
      · exact absurd ((List.mem_singleton.1 h2).trans hPe) hp2ne
    · rw [hfilter_unclean (by rw [hPe]; decide)]
      exact hkeys
  · have hPne : ¬ c.preparation = "__proto__" := fun h => hP (by simp [h])
    by_cases hany : (acc.any (fun e => e.1 == c.preparation)) = true
    · -- the key already has an own property
      rcases List.any_eq_true.1 hany with ⟨e0, he0, he0k⟩
      obtain ⟨k0, v0⟩ := e0
      have hk0 : k0 = c.preparation := by simpa using he0k
      subst hk0
      have hfind : acc.find? (fun e => e.1 == c.preparation)
          = some (c.preparation, v0) := by
        exact find?_fst_eq_of_mem hnd he0
      obtain ⟨he0in, he0num, he0str⟩ := hmem _ he0
      cases hv : v0 with
      | num n =>
        subst hv
        obtain ⟨hcl0, hcnt0⟩ := he0num n rfl
        have hcl : cleanPrep c.preparation = true := hcl0
        have hcnt : n = (prepList processed).count c.preparation := hcnt0
        have huniq : ∀ e ∈ acc, (e.1 == c.preparation) = true →
            e = (c.preparation, PropVal.num n) := by
          intro e he hk
          exact List.inj_on_of_nodup_map hnd he he0 (by simpa using hk)
        have hstep : addPrepCount acc c =
            acc.map (fun e => if e.1 == c.preparation
              then (e.1, PropVal.num (n + 1)) else e) := by
          unfold addPrepCount
          rw [hfind, if_neg hP, if_pos hany]
        rw [hstep]
        refine ⟨?_, ?_, ?_, ?_⟩
        · rw [map_update_fst]
          exact hnd
        · intro e' he'
          rcases map_update_mem he' with ⟨e, he, hek, rfl⟩ | ⟨he, hne⟩
          · refine ⟨hc_in, ?_, ?_⟩
            · intro m hm
              have hm' : n + 1 = m := by simpa using hm
              subst hm'
              refine ⟨hcl, ?_⟩
              rw [hcount_self, ← hcnt]
            · intro hs
              simp at hs
          · obtain ⟨hin, hnum, hstr⟩ := hmem e' he
            refine ⟨hin_new _ hin, ?_, hstr⟩
            intro m hm
            obtain ⟨hc2, hcnt2⟩ := hnum m hm
            exact ⟨hc2, by rw [hcount_other e'.1 hne]; exact hcnt2⟩
        · intro p2 hp2 hp2ne
          rw [map_update_fst]
          rw [hplist] at hp2
          rcases List.mem_append.1 hp2 with h2 | h2
          · exact hcov p2 h2 hp2ne
          · rw [List.mem_singleton.1 h2]
            exact List.mem_map_of_mem Prod.fst he0
        · have hNE : (numEntries (acc.map (fun e => if e.1 == c.preparation
              then (e.1, PropVal.num (n + 1)) else e))).map Prod.fst
              = (numEntries acc).map Prod.fst := by
            apply numEntries_keys_map
            intro e he
            refine ⟨?_, ?_, ?_⟩
            · by_cases hk : (e.1 == c.preparation) = true
              · simp [hk]
              · simp [hk]
            · intro m hm
              by_cases hk : (e.1 == c.preparation) = true
              · exact ⟨n + 1, by simp [hk]⟩
              · exact ⟨m, by simp [hk, hm]⟩
            · intro hsv
              by_cases hk : (e.1 == c.preparation) = true
              · have heq := huniq e he hk
                rw [heq] at hsv
                simp at hsv
              · simp [hk, hsv]
          have hx : ((c.preparation, n) : String × Nat) ∈ numEntries acc :=
            mem_numEntries.2 ⟨(c.preparation, PropVal.num n), he0, rfl, rfl⟩
          have hpin : c.preparation ∈ dedupFirst ((prepList processed).filter cleanPrep) := by
            rw [← hkeys]
            exact List.mem_map_of_mem Prod.fst hx
          rw [hNE, hfilter_clean hcl, dedupFirst_append_singleton, if_pos hpin]
          exact hkeys
      | strv =>
        subst hv
        obtain ⟨hucl0, _⟩ := he0str rfl
        have hucl : cleanPrep c.preparation = false := hucl0
        have huniq : ∀ e ∈ acc, (e.1 == c.preparation) = true →
            e = (c.preparation, PropVal.strv) := by
          intro e he hk
          exact List.inj_on_of_nodup_map hnd he he0 (by simpa using hk)
        have hstep : addPrepCount acc c =
            acc.map (fun e => if e.1 == c.preparation
              then (e.1, PropVal.strv) else e) := by
          unfold addPrepCount
          rw [hfind, if_neg hP, if_pos hany]
        rw [hstep]
        refine ⟨?_, ?_, ?_, ?_⟩
        · rw [map_update_fst]
          exact hnd
        · intro e' he'
          rcases map_update_mem he' with ⟨e, he, hek, rfl⟩ | ⟨he, hne⟩
          · refine ⟨hc_in, ?_, fun _ => ⟨hucl, hPne⟩⟩
            intro m hm
            simp at hm
          · obtain ⟨hin, hnum, hstr⟩ := hmem e' he
            refine ⟨hin_new _ hin, ?_, hstr⟩
            intro m hm
            obtain ⟨hc2, hcnt2⟩ := hnum m hm
            exact ⟨hc2, by rw [hcount_other e'.1 hne]; exact hcnt2⟩
        · intro p2 hp2 hp2ne
          rw [map_update_fst]
          rw [hplist] at hp2
          rcases List.mem_append.1 hp2 with h2 | h2
          · exact hcov p2 h2 hp2ne
          · rw [List.mem_singleton.1 h2]
            exact List.mem_map_of_mem Prod.fst he0
        · have hNE : (numEntries (acc.map (fun e => if e.1 == c.preparation
              then (e.1, PropVal.strv) else e))).map Prod.fst
              = (numEntries acc).map Prod.fst := by
            apply numEntries_keys_map
            intro e he
            refine ⟨?_, ?_, ?_⟩
            · by_cases hk : (e.1 == c.preparation) = true
              · simp [hk]
              · simp [hk]
            · intro m hm
              by_cases hk : (e.1 == c.preparation) = true
              · have heq := huniq e he hk
                rw [heq] at hm
                simp at hm
              · exact ⟨m, by simp [hk, hm]⟩
            · intro hsv
              by_cases hk : (e.1 == c.preparation) = true
              · simp [hk]
              · simp [hk, hsv]
          rw [hNE, hfilter_unclean hucl]
          exact hkeys
    · -- first occurrence of the key as an own property
      have hnotin : c.preparation ∉ acc.map Prod.fst := by
        intro hmem2
        rcases List.mem_map.1 hmem2 with ⟨e, he, hfe⟩
        exact hany (List.any_eq_true.2 ⟨e, he, by simp [hfe]⟩)
      have hfindnone : acc.find? (fun e => e.1 == c.preparation) = none := by
        rw [List.find?_eq_none]
        intro x hx hxk
        exact hany (List.any_eq_true.2 ⟨x, hx, hxk⟩)
      have hnotprep : c.preparation ∉ prepList processed := by
        intro hp
        exact hnotin (hcov _ hp hPne)
      have hzero : (prepList processed).count c.preparation = 0 :=
        List.count_eq_zero.2 hnotprep
      by_cases hcl : cleanPrep c.preparation = true
      · have hstep : addPrepCount acc c = acc ++ [(c.preparation, PropVal.num 1)] := by
          unfold addPrepCount
          rw [hfindnone, if_neg hP, if_neg hany]
          simp [hcl]
        rw [hstep]
        refine ⟨?_, ?_, ?_, ?_⟩
        · simp only [List.map_append, List.map_cons, List.map_nil]
          rw [List.nodup_append]
          refine ⟨hnd, List.nodup_singleton _, ?_⟩
          intro a ha hb
          rw [List.mem_singleton] at hb
          subst hb
          exact hnotin ha
        · intro e' he'
          rcases List.mem_append.1 he' with h2 | h2
          · obtain ⟨hin, hnum, hstr⟩ := hmem e' h2
            refine ⟨hin_new _ hin, ?_, hstr⟩
            intro m hm
            obtain ⟨hc2, hcnt2⟩ := hnum m hm
            have hne : ¬ e'.1 = c.preparation := by
              intro heq
              exact hnotin (heq ▸ List.mem_map_of_mem Prod.fst h2)
            exact ⟨hc2, by rw [hcount_other e'.1 hne]; exact hcnt2⟩
          · rw [List.mem_singleton.1 h2]
            refine ⟨hc_in, ?_, ?_⟩
            · intro m hm
              have hm' : (1 : Nat) = m := by simpa using hm
              subst hm'
              refine ⟨hcl, ?_⟩
              rw [hcount_self, hzero]
            · intro hs
              simp at hs
        · intro p2 hp2 hp2ne
          simp only [List.map_append, List.map_cons, List.map_nil]
          rw [hplist] at hp2
          rcases List.mem_append.1 hp2 with h2 | h2
          · exact List.mem_append_left _ (hcov p2 h2 hp2ne)
          · rw [List.mem_singleton.1 h2]
            exact List.mem_append_right _ (List.mem_singleton.2 rfl)
        · have hNE : numEntries (acc ++ [(c.preparation, PropVal.num 1)]) =
              numEntries acc ++ [(c.preparation, 1)] := by
            unfold numEntries
            rw [List.filterMap_append]
            rfl
          rw [hNE, List.map_append, hfilter_clean hcl, dedupFirst_append_singleton]
          have hpnotin : c.preparation ∉
              dedupFirst ((prepList processed).filter cleanPrep) := by
            rw [← hkeys]
            intro hmem3
            rcases List.mem_map.1 hmem3 with ⟨x, hx, hfx⟩
            have h4 := mem_map_fst_of_mem_numEntries hx
            rw [hfx] at h4
            exact hnotin h4
          rw [if_neg hpnotin, hkeys]
          simp
      · -- inherited value: `(acc[p] || 0) + 1` concatenates onto a function string
        have hcl' : cleanPrep c.preparation = false := Bool.eq_false_iff.2 hcl
        have hstep : addPrepCount acc c = acc ++ [(c.preparation, PropVal.strv)] := by
          unfold addPrepCount
          rw [hfindnone, if_neg hP, if_neg hany]
          simp [hcl]
        rw [hstep]
        refine ⟨?_, ?_, ?_, ?_⟩
        · simp only [List.map_append, List.map_cons, List.map_nil]
          rw [List.nodup_append]
          refine ⟨hnd, List.nodup_singleton _, ?_⟩
          intro a ha hb
          rw [List.mem_singleton] at hb
          subst hb
          exact hnotin ha
        · intro e' he'
          rcases List.mem_append.1 he' with h2 | h2
          · obtain ⟨hin, hnum, hstr⟩ := hmem e' h2
            refine ⟨hin_new _ hin, ?_, hstr⟩
            intro m hm
            obtain ⟨hc2, hcnt2⟩ := hnum m hm
            have hne : ¬ e'.1 = c.preparation := by
              intro heq
              exact hnotin (heq ▸ List.mem_map_of_mem Prod.fst h2)
            exact ⟨hc2, by rw [hcount_other e'.1 hne]; exact hcnt2⟩
          · rw [List.mem_singleton.1 h2]
            refine ⟨hc_in, ?_, fun _ => ⟨hcl', hPne⟩⟩
            intro m hm
            simp at hm
        · intro p2 hp2 hp2ne
          simp only [List.map_append, List.map_cons, List.map_nil]
          rw [hplist] at hp2
          rcases List.mem_append.1 hp2 with h2 | h2
          · exact List.mem_append_left _ (hcov p2 h2 hp2ne)
          · rw [List.mem_singleton.1 h2]
            exact List.mem_append_right _ (List.mem_singleton.2 rfl)
        · have hNE : numEntries (acc ++ [(c.preparation, PropVal.strv)]) =
              numEntries acc := by
            unfold numEntries
            rw [List.filterMap_append]
            simp
          rw [hNE, hfilter_unclean hcl']
          exact hkeys

theorem prepCountsSpec_foldl (cs : List CoffeeRec) : ∀ (processed : List CoffeeRec)
    (acc : List (String × PropVal)), prepCountsSpec processed acc →
    prepCountsSpec (processed ++ cs) (cs.foldl addPrepCount acc) := by
  induction cs with
  | nil =>
    intro processed acc h
    simpa using h
  | cons c cs ih =>
    intro processed acc h
    rw [List.foldl_cons]
    have h2 := ih (processed ++ [c]) (addPrepCount acc c)
      (prepCountsSpec_step processed acc h c)
    simpa [List.append_assoc] using h2

theorem prepCounts_spec (cs : List CoffeeRec) : prepCountsSpec cs (prepCounts cs) := by
  have h := prepCountsSpec_foldl cs [] [] prepCountsSpec_nil
  simpa [prepCounts] using h

theorem jsEntries_id (l : List (String × PropVal))
    (h : ∀ e ∈ l, isArrayIndexKey e.1 = false) : jsEntries l = l := by
  unfold jsEntries
  have h1 : l.filter (fun e => isArrayIndexKey e.1) = [] := by
    rw [List.filter_eq_nil_iff]
    intro e he
    simp [h e he]
  have h2 : l.filter (fun e => !(isArrayIndexKey e.1)) = l := by
    rw [List.filter_eq_self]
    intro e he
    simp [h e he]
  rw [h1, h2]
  rfl

theorem jsEntries_perm (l : List (String × PropVal)) : (jsEntries l).Perm l := by
  unfold jsEntries
  have h1 : ((l.filter (fun e => isArrayIndexKey e.1)).insertionSort
      (fun a b => ((parseCanonNat a.1).getD 0) ≤ ((parseCanonNat b.1).getD 0))).Perm
      (l.filter (fun e => isArrayIndexKey e.1)) :=
    List.perm_insertionSort _ _
  exact (h1.append_right _).trans (List.filter_append_perm _ l)

theorem bestPrepScan_eq_numEntries (entries : List (String × PropVal)) :
    bestPrepScan entries =
      (numEntries entries).foldl
        (fun best e => if best.2 < e.2 then (some e.1, e.2) else best)
        ((none : Option String), 0) := by
  suffices h : ∀ (l : List (String × PropVal)) (b : Option String × Nat),
      l.foldl (fun best e =>
        match e.2 with
        | .num n => if best.2 < n then (some e.1, n) else best
        | .strv => best) b =
      (l.filterMap (fun e =>
        match e.2 with
        | .num n => some (e.1, n)
        | .strv => none)).foldl
        (fun best e => if best.2 < e.2 then (some e.1, e.2) else best) b by
    exact h entries _
  intro l
  induction l with
  | nil =>
    intro b
    rfl
  | cons e l ih =>
    intro b
    rw [List.foldl_cons, List.filterMap_cons]
    cases hv : e.2 with
    | num n =>
      simp only [hv]
      rw [List.foldl_cons]
      exact ih _
    | strv =>
      simp only [hv]
      exact ih _

theorem bestPrepScanPV_eq (entries : List (String × PropVal)) :
    bestPrepScan entries =
      match (numEntries entries).find?
          (fun e => decide (0 < e.2) && decide (∀ x ∈ numEntries entries, x.2 ≤ e.2)) with
      | some e0 => (some e0.1, e0.2)
      | none => ((none : Option String), 0) := by
  rw [bestPrepScan_eq_numEntries, scanStep_foldl]

/-- C8 (amended): since the accumulator is a plain `{}` object,
preparations named after inherited `Object.prototype` properties (such
as `"toString"`) read the inherited function, so `(acc[p] || 0) + 1`
concatenates into a string whose comparison with `maxCount` is `NaN`
and never wins, while assigning `acc["__proto__"]` creates no own
property at all.  Hence: the result is `null` exactly when no entry's
preparation is a plain data key; any returned preparation is a plain
data key occurring in the list with maximal occurrence count among the
plain-data-key preparations; and — because `Object.entries` enumerates
canonical array-index keys first in ascending numeric order — the
first-seen tie-break holds among plain data keys whenever no
preparation is such a numeric string. -/
theorem mostCommonPreparation_spec (cs : List CoffeeRec) :
    (calculateMostCommonPreparation cs = none ↔ cleanPrepList cs = [])
    ∧ (∀ p, calculateMostCommonPreparation cs = some p →
        cleanPrep p = true ∧ p ∈ prepList cs
        ∧ ∀ q ∈ prepList cs, cleanPrep q = true →
            prepOccCount cs q ≤ prepOccCount cs p)
    ∧ ((∀ c ∈ cs, isArrayIndexKey c.preparation = false) →
        calculateMostCommonPreparation cs = firstSeenCleanMode cs) := by
  obtain ⟨hnd, hmem, hcov, hkeys⟩ := prepCounts_spec cs
  have hE : (jsEntries (prepCounts cs)).Perm (prepCounts cs) := jsEntries_perm _
  have hNEperm : (numEntries (jsEntries (prepCounts cs))).Perm
      (numEntries (prepCounts cs)) := by
    unfold numEntries
    exact hE.filterMap _
  refine ⟨?_, ?_, ?_⟩
  · constructor
    · intro h
      by_contra hne
      obtain ⟨p0, hp0⟩ := List.exists_mem_of_ne_nil _ hne
      have hp0' : p0 ∈ (prepList cs).filter cleanPrep := hp0
      obtain ⟨hp0in, hp0cl⟩ := List.mem_filter.1 hp0'
      have hcsne : cs ≠ [] := by
        intro hc
        subst hc
        simp [prepList] at hp0in
      have hempty : cs.isEmpty = false := by
        cases cs with
        | nil => exact absurd rfl hcsne
        | cons a l => rfl
      unfold calculateMostCommonPreparation at h
      rw [hempty] at h
      simp only [Bool.false_eq_true, if_false] at h
      rw [bestPrepScanPV_eq] at h
      cases hfind : (numEntries (jsEntries (prepCounts cs))).find?
          (fun e => decide (0 < e.2) &&
            decide (∀ x ∈ numEntries (jsEntries (prepCounts cs)), x.2 ≤ e.2)) with
      | some e0 =>
        rw [hfind] at h
        cases h
      | none =>
        have hp0ne : ¬ p0 = "__proto__" := cleanPrep_ne_proto hp0cl
        rcases List.mem_map.1 (hcov p0 hp0in hp0ne) with ⟨e1, he1, hfe1⟩
        obtain ⟨hin1, hnum1, hstr1⟩ := hmem e1 he1
        cases hv1 : e1.2 with
        | strv =>
          obtain ⟨hf1, _⟩ := hstr1 hv1
          rw [hfe1] at hf1
          rw [hf1] at hp0cl
          cases hp0cl
        | num m1 =>
          have hx1 : ((e1.1, m1) : String × Nat) ∈ numEntries (prepCounts cs) :=
            mem_numEntries.2 ⟨e1, he1, rfl, hv1⟩
          have hx1' : ((e1.1, m1) : String × Nat) ∈
              numEntries (jsEntries (prepCounts cs)) :=
            hNEperm.mem_iff.2 hx1
          obtain ⟨a0, E2, hEeq⟩ : ∃ a0 E2,
              numEntries (jsEntries (prepCounts cs)) = a0 :: E2 := by
            cases hEl : numEntries (jsEntries (prepCounts cs)) with
            | nil =>
              rw [hEl] at hx1'
              cases hx1'
            | cons a l => exact ⟨a, l, rfl⟩
          rw [hEeq] at hfind
          obtain ⟨x, hx, hmax⟩ := exists_max_entry a0 E2
          have hxNE : x ∈ numEntries (prepCounts cs) :=
            hNEperm.mem_iff.1 (hEeq ▸ hx)
          rcases mem_numEntries.1 hxNE with ⟨ex, hex, hexf, hexv⟩
          obtain ⟨hinx, hnumx, _⟩ := hmem ex hex
          obtain ⟨_, hcntx⟩ := hnumx x.2 hexv
          have hxpos : 0 < x.2 := by
            rw [hcntx]
            exact List.count_pos_iff.2 hinx
          have h5 := List.find?_eq_none.1 hfind x hx
          apply h5
          simp only [Bool.and_eq_true, decide_eq_true_eq]
          exact ⟨hxpos, hEeq ▸ hmax⟩
    · intro h
      by_cases hempty : cs.isEmpty = true
      · unfold calculateMostCommonPreparation
        rw [hempty]
        rfl
      · unfold calculateMostCommonPreparation
        rw [Bool.eq_false_iff.2 hempty]
        simp only [Bool.false_eq_true, if_false]
        rw [bestPrepScanPV_eq]
        have h' : (prepList cs).filter cleanPrep = [] := h
        have hk0 : (numEntries (prepCounts cs)).map Prod.fst = [] := by
          rw [hkeys, h']
          rfl
        have hNEnil : numEntries (prepCounts cs) = [] :=
          List.map_eq_nil_iff.1 hk0
        have hNE'nil : numEntries (jsEntries (prepCounts cs)) = [] := by
          have h6 := hNEperm
          rw [hNEnil] at h6
          exact h6.eq_nil
        rw [hNE'nil]
        rfl
  · intro p hp
    by_cases hempty : cs.isEmpty = true
    · unfold calculateMostCommonPreparation at hp
      rw [hempty] at hp
      simp only [if_true] at hp
      cases hp
    · unfold calculateMostCommonPreparation at hp
      rw [Bool.eq_false_iff.2 hempty] at hp
      simp only [Bool.false_eq_true, if_false] at hp
      rw [bestPrepScanPV_eq] at hp
      cases hfind : (numEntries (jsEntries (prepCounts cs))).find?
          (fun e => decide (0 < e.2) &&
            decide (∀ x ∈ numEntries (jsEntries (prepCounts cs)), x.2 ≤ e.2)) with
      | none =>
        rw [hfind] at hp
        cases hp
      | some e0 =>
        rw [hfind] at hp
        have hp2 : e0.1 = p := by simpa using hp
        have he0mem : e0 ∈ numEntries (jsEntries (prepCounts cs)) :=
          List.mem_of_find?_eq_some hfind
        have hpred := List.find?_some hfind
        simp only [Bool.and_eq_true, decide_eq_true_eq] at hpred
        have he0NE : e0 ∈ numEntries (prepCounts cs) := hNEperm.mem_iff.1 he0mem
        rcases mem_numEntries.1 he0NE with ⟨e, he, hef, hev⟩
        obtain ⟨hin, hnum, _⟩ := hmem e he
        obtain ⟨hcl, hcnt⟩ := hnum e0.2 hev
        refine ⟨?_, ?_, ?_⟩
        · rw [← hp2, ← hef]
          exact hcl
        · rw [← hp2, ← hef]
          exact hin
        · intro q hq hqcl
          have hqne : ¬ q = "__proto__" := cleanPrep_ne_proto hqcl
          rcases List.mem_map.1 (hcov q hq hqne) with ⟨e2, he2, hfe2⟩
          obtain ⟨hin2, hnum2, hstr2⟩ := hmem e2 he2
          cases hv2 : e2.2 with
          | strv =>
            obtain ⟨hfcl, _⟩ := hstr2 hv2
            rw [hfe2] at hfcl
            rw [hfcl] at hqcl
            cases hqcl
          | num m =>
            obtain ⟨_, hcnt2⟩ := hnum2 m hv2
            have hm2 : ((e2.1, m) : String × Nat) ∈ numEntries (prepCounts cs) :=
              mem_numEntries.2 ⟨e2, he2, rfl, hv2⟩
            have hm2' : ((e2.1, m) : String × Nat) ∈
                numEntries (jsEntries (prepCounts cs)) :=
              hNEperm.mem_iff.2 hm2
            have hle := hpred.2 _ hm2'
            unfold prepOccCount
            rw [← hp2, ← hef, ← hcnt, ← hfe2, ← hcnt2]
            exact hle
  · intro hidx
    by_cases hempty : cs.isEmpty = true
    · have he : cs = [] := List.isEmpty_iff.1 hempty
      subst he
      rfl
    · unfold calculateMostCommonPreparation
      rw [Bool.eq_false_iff.2 hempty]
      simp only [Bool.false_eq_true, if_false]
      rw [bestPrepScanPV_eq]
      have hEid : jsEntries (prepCounts cs) = prepCounts cs := by
        apply jsEntries_id
        intro e he
        rcases List.mem_map.1 (hmem e he).1 with ⟨c, hc, hpc⟩
        rw [← hpc]
        exact hidx c hc
      rw [hEid]
      have hcongr : (numEntries (prepCounts cs)).find?
          (fun e => decide (0 < e.2) &&
            decide (∀ x ∈ numEntries (prepCounts cs), x.2 ≤ e.2)) =
          (numEntries (prepCounts cs)).find?
          (fun e => decide (∀ q ∈ cleanPrepList cs,
            (cleanPrepList cs).count q ≤ (cleanPrepList cs).count e.1)) := by
        apply find?_congr_mem
        intro e he
        rcases mem_numEntries.1 he with ⟨e', he', hef', hev'⟩
        obtain ⟨hin', hnum', _⟩ := hmem e' he'
        obtain ⟨hcl', hcnt'⟩ := hnum' e.2 hev'
        have hcle : cleanPrep e.1 = true := hef' ▸ hcl'
        have hine : e.1 ∈ prepList cs := hef' ▸ hin'
        have hcnte : e.2 = (prepList cs).count e.1 := by
          rw [← hef']
          exact hcnt'
        have hpos : 0 < e.2 := by
          rw [hcnte]
          exact List.count_pos_iff.2 hine
        have hccount : ∀ r : String, cleanPrep r = true →
            (cleanPrepList cs).count r = (prepList cs).count r := by
          intro r hr
          have h7 : (cleanPrepList cs).count r
              = ((prepList cs).filter cleanPrep).count r := rfl
          rw [h7, List.count_filter hr]
        have hiff2 : (∀ x ∈ numEntries (prepCounts cs), x.2 ≤ e.2) ↔
            (∀ q ∈ cleanPrepList cs,
              (cleanPrepList cs).count q ≤ (cleanPrepList cs).count e.1) := by
          constructor
          · intro hall q hq
            obtain ⟨hqin, hqcl⟩ := List.mem_filter.1
              (show q ∈ (prepList cs).filter cleanPrep from hq)
            have hqne : ¬ q = "__proto__" := cleanPrep_ne_proto hqcl
            rcases List.mem_map.1 (hcov q hqin hqne) with ⟨e2, he2, hfe2⟩
            obtain ⟨hin2, hnum2, hstr2⟩ := hmem e2 he2
            cases hv2 : e2.2 with
            | strv =>
              obtain ⟨hfcl, _⟩ := hstr2 hv2
              rw [hfe2] at hfcl
              rw [hfcl] at hqcl
              cases hqcl
            | num m =>
              obtain ⟨_, hcnt2⟩ := hnum2 m hv2
              have hm2 : ((e2.1, m) : String × Nat) ∈ numEntries (prepCounts cs) :=
                mem_numEntries.2 ⟨e2, he2, rfl, hv2⟩
              have hle := hall _ hm2
              rw [hccount q hqcl, hccount e.1 hcle, ← hfe2, ← hcnt2, ← hcnte]
              exact hle
          · intro hall x hx
            rcases mem_numEntries.1 hx with ⟨x', hx', hxf, hxv⟩
            obtain ⟨hinx, hnumx, _⟩ := hmem x' hx'
            obtain ⟨hclx, hcntx⟩ := hnumx x.2 hxv
            have hclx1 : cleanPrep x.1 = true := hxf ▸ hclx
            have hinx1 : x.1 ∈ prepList cs := hxf ▸ hinx
            have hcntx1 : x.2 = (prepList cs).count x.1 := by
              rw [← hxf]
              exact hcntx
            have hxq : x.1 ∈ cleanPrepList cs :=
              List.mem_filter.2 ⟨hinx1, hclx1⟩
            have hle := hall _ hxq
            rw [hccount x.1 hclx1, hccount e.1 hcle] at hle
            rw [hcntx1, hcnte]
            exact hle
        rw [decide_eq_true hpos, Bool.true_and]
        exact decide_eq_decide.2 hiff2
      rw [hcongr]
      have hres : (match (numEntries (prepCounts cs)).find?
          (fun e : String × Nat => decide (∀ q ∈ cleanPrepList cs,
            (cleanPrepList cs).count q ≤ (cleanPrepList cs).count e.1)) with
          | some e0 => (some e0.1, e0.2)
          | none => ((none : Option String), 0)).1 =
          Option.map Prod.fst ((numEntries (prepCounts cs)).find?
          (fun e : String × Nat => decide (∀ q ∈ cleanPrepList cs,
            (cleanPrepList cs).count q ≤ (cleanPrepList cs).count e.1))) := by
        cases (numEntries (prepCounts cs)).find?
          (fun e : String × Nat => decide (∀ q ∈ cleanPrepList cs,
            (cleanPrepList cs).count q ≤ (cleanPrepList cs).count e.1)) with
        | some e0 => rfl
        | none => rfl
      rw [hres]
      show Option.map Prod.fst ((numEntries (prepCounts cs)).find?
        ((fun k => decide (∀ q ∈ cleanPrepList cs,
          (cleanPrepList cs).count q ≤ (cleanPrepList cs).count k)) ∘ Prod.fst)) =
        firstSeenCleanMode cs
      rw [← List.find?_map]
      rw [hkeys, dedupFirst_eq_dedupF, dedupF_find?]
      unfold firstSeenCleanMode
      rfl

/-- C8 counterexamples: with preparations `"1"` then `"0"` (both count
1) the code answers `"0"` — array-index keys are enumerated in
ascending numeric order, not insertion order — while first-seen-wins
would answer `"1"`; and with the single preparation `"toString"` the
code answers `null` on a non-empty list, because the count read starts
from the inherited `Object.prototype.toString` function and becomes a
string that never exceeds `maxCount`. -/
theorem mostCommonPreparation_counterexample :
    calculateMostCommonPreparation
      [{ id := 1, userId := 1, name := "n", brand := "b", preparation := "1",
         shots := 1, flavor := "f", rating := 4, description := "d", createdAt := 0 },
       { id := 2, userId := 1, name := "n", brand := "b", preparation := "0",
         shots := 1, flavor := "f", rating := 4, description := "d", createdAt := 0 }] =
      some "0"
    ∧ firstSeenMode
      [{ id := 1, userId := 1, name := "n", brand := "b", preparation := "1",
         shots := 1, flavor := "f", rating := 4, description := "d", createdAt := 0 },
       { id := 2, userId := 1, name := "n", brand := "b", preparation := "0",
         shots := 1, flavor := "f", rating := 4, description := "d", createdAt := 0 }] =
      some "1"
    ∧ calculateMostCommonPreparation
      [{ id := 1, userId := 1, name := "n", brand := "b", preparation := "toString",
         shots := 1, flavor := "f", rating := 4, description := "d", createdAt := 0 }] =
      none
    ∧ ([{ id := 1, userId := 1, name := "n", brand := "b", preparation := "toString",
          shots := 1, flavor := "f", rating := 4, description := "d",
          createdAt := 0 }] : List CoffeeRec) ≠ [] :=
  ⟨rfl, rfl, rfl, List.cons_ne_nil _ _⟩

/-- Witness for C8's amended theorem: on plain, non-numeric preparation
names the code agrees with the first-seen clean mode. -/
theorem mostCommonPreparation_spec_witness :
    calculateMostCommonPreparation
      [{ id := 1, userId := 1, name := "n", brand := "b", preparation := "espresso",
         shots := 1, flavor := "f", rating := 4, description := "d", createdAt := 0 },
       { id := 2, userId := 1, name := "n", brand := "b", preparation := "v60",
         shots := 1, flavor := "f", rating := 4, description := "d", createdAt := 0 },
       { id := 3, userId := 1, name := "n", brand := "b", preparation := "espresso",
         shots := 1, flavor := "f", rating := 4, description := "d", createdAt := 0 }] =
      firstSeenCleanMode
      [{ id := 1, userId := 1, name := "n", brand := "b", preparation := "espresso",
         shots := 1, flavor := "f", rating := 4, description := "d", createdAt := 0 },
       { id := 2, userId := 1, name := "n", brand := "b", preparation := "v60",
         shots := 1, flavor := "f", rating := 4, description := "d", createdAt := 0 },
       { id := 3, userId := 1, name := "n", brand := "b", preparation := "espresso",
         shots := 1, flavor := "f", rating := 4, description := "d", createdAt := 0 }] :=
  (mostCommonPreparation_spec
    [{ id := 1, userId := 1, name := "n", brand := "b", preparation := "espresso",
       shots := 1, flavor := "f", rating := 4, description := "d", createdAt := 0 },
     { id := 2, userId := 1, name := "n", brand := "b", preparation := "v60",
       shots := 1, flavor := "f", rating := 4, description := "d", createdAt := 0 },
     { id := 3, userId := 1, name := "n", brand := "b", preparation := "espresso",
       shots := 1, flavor := "f", rating := 4, description := "d", createdAt := 0 }]).2.2
    (by decide)

/-- Witness for C7's amended theorem: for a single entry, the single
resulting group carries count 1 and that entry's rating. -/
theorem mostConsumed_spec_witness :
    ({ name := "n", brand := "b", count := 1, rating := ((4 : Int) : Rat),
       avgRating := ((4 : Int) : Rat) / 1 } : AggregatedCoffee).count =
      ([{ id := 1, userId := 1, name := "n", brand := "b", preparation := "espresso",
          shots := 1, flavor := "f", rating := 4, description := "d",
          createdAt := 0 }].filter
        (fun c => statsKey c == aggKey ({ name := "n", brand := "b", count := 1,
                                          rating := ((4 : Int) : Rat),
                                          avgRating := ((4 : Int) : Rat) / 1 } :
                                          AggregatedCoffee))).length :=
  ((mostConsumed_spec
    [{ id := 1, userId := 1, name := "n", brand := "b", preparation := "espresso",
       shots := 1, flavor := "f", rating := 4, description := "d", createdAt := 0 }]).2.2.1
    { name := "n", brand := "b", count := 1, rating := ((4 : Int) : Rat),
      avgRating := ((4 : Int) : Rat) / 1 }
    (List.mem_singleton.2 rfl)).1
